import Mathlib

/-!
Verification of the YAML section sanitizer (src/sanitizer.js) of the
Vibe-Coder repository against its natural-language specification.

The development shallow-embeds the sanitizer's pure text-processing logic:

* `splitLines` models JavaScript `content.split("\n")`;
* `splitIntoYamlSections` mirrors the line scanner at src/sanitizer.js:356-408;
* `validateYamlSection` mirrors src/sanitizer.js:415-434, parametrised by a
  `load : String → Bool` oracle standing for the external js-yaml `yaml.load`
  call (success = no exception thrown);
* `fixFileContent` mirrors the per-file repair logic of
  `fixDuplicateCapabilities` (src/sanitizer.js:150-242), with the filesystem
  effects (backup creation, write, checksum read-back) reflected in an
  explicit result type; checksum equality of sha256 digests is modelled as
  string equality of the contents;
* `validatePath` mirrors src/sanitizer.js:62-85 over a model of the POSIX
  behaviour of Node's `path.normalize`/`path.resolve`;
* `fixDuplicateCapabilities` / `validateFilesWithYaml` model the two public
  driver loops over the allow-list, with per-file I/O failure points
  (missing file, read error, backup failure, write error) injected through
  an environment.
-/

namespace Sanitizer

/-- The ASCII whitespace characters matched by the JavaScript regex class
`\s` and stripped by `String.prototype.trim` (the Unicode additions never
occur in the files at hand). -/
def jsWhitespace (c : Char) : Bool :=
  c = ' ' || c = '\t' || c = '\n' || c = '\r' || c = '\x0b' || c = '\x0c'

/-- Splitting a character list at every occurrence of `sep`, the semantics of
JavaScript `String.prototype.split` with a one-character separator: `n`
separators yield `n + 1` (possibly empty) pieces. -/
def splitOnChar (sep : Char) : List Char → List (List Char)
  | [] => [[]]
  | c :: cs =>
    if c = sep then [] :: splitOnChar sep cs
    else
      match splitOnChar sep cs with
      | [] => [[c]]
      | l :: ls => (c :: l) :: ls

/-- JavaScript `content.split("\n")`. -/
def splitLines (s : String) : List String :=
  (splitOnChar '\n' s.data).map (fun l => String.mk l)

/-- JavaScript `String.prototype.trim` (both ends). -/
def jsTrim (s : String) : String :=
  String.mk (((s.data.dropWhile jsWhitespace).reverse.dropWhile jsWhitespace).reverse)

/-- Whether the JavaScript regex `/^\s+/` matches `line`, i.e. whether the
line starts with a whitespace character. -/
def startsWithWs (line : String) : Bool :=
  match line.data with
  | [] => false
  | c :: _ => jsWhitespace c

/-- `line.trim() === ""`: the line is empty or all whitespace. -/
def jsBlank (line : String) : Bool := jsTrim line == ""

/-- JavaScript `s.includes(c)` for a one-character needle. -/
def strContains (s : String) (c : Char) : Bool := s.data.contains c

/-- Boolean prefix test on strings (character-exact). -/
def startsWithStr (p s : String) : Bool := p.data.isPrefixOf s.data

/-- The string with every character lower-cased; used to express the
case-insensitive (`i` flag) regex matches of the sanitizer. -/
def lowerStr (s : String) : String := String.mk (s.data.map Char.toLower)

/-- The line with its leading whitespace removed, the part a leading `\s*`
regex prefix consumes. -/
def dropLeadingWs (s : String) : String := String.mk (s.data.dropWhile jsWhitespace)

/-- Whether a single line matches `^\s*capabilities:` case-sensitively (the
counting regex of src/sanitizer.js:155). -/
def capsLineCS (line : String) : Bool :=
  startsWithStr "capabilities:" (dropLeadingWs line)

/-- Whether a single line matches `^\s*capabilities:` case-insensitively (the
per-line reading of the `/^\s*capabilities:/mi` test of src/sanitizer.js:177:
with the `m` flag the regex matches the section iff some line matches this
predicate). -/
def capsLineCI (line : String) : Bool :=
  startsWithStr "capabilities:" (lowerStr (dropLeadingWs line))

/-- Whether a single line matches `^\s*mode:` case-insensitively
(src/sanitizer.js:203). -/
def modeLineCI (line : String) : Bool :=
  startsWithStr "mode:" (lowerStr (dropLeadingWs line))

/-- A top-level line: non-blank and without leading whitespace.  In the
scanner these are exactly the lines that open a new section. -/
def topLevel (line : String) : Bool := !jsBlank line && !startsWithWs line

/-- The scanner state of `splitIntoYamlSections`: completed sections, the
accumulator of the current section, and the `inYamlBlock` flag. -/
structure SplitSt where
  sections : List String
  cur : String
  inYaml : Bool

/-- One iteration of the line loop of `splitIntoYamlSections`
(src/sanitizer.js:365-400). -/
def splitStep (st : SplitSt) (line : String) : SplitSt :=
  let trimmedLine := jsTrim line
  if st.cur == "" && trimmedLine == "" then
    st
  else if !(trimmedLine == "") && !startsWithWs line && !st.inYaml then
    { sections := if !(st.cur == "") then st.sections ++ [st.cur] else st.sections
      cur := line ++ "\n"
      inYaml := strContains line ':' }
  else if st.inYaml && !(trimmedLine == "") && !startsWithWs line then
    { sections := st.sections ++ [st.cur]
      cur := line ++ "\n"
      inYaml := strContains line ':' }
  else
    { st with cur := st.cur ++ line ++ "\n" }

/-- Flushing the accumulator after the loop (src/sanitizer.js:403-405). -/
def finalizeSt (st : SplitSt) : List String :=
  if !(st.cur == "") then st.sections ++ [st.cur] else st.sections

/-- `splitIntoYamlSections` (src/sanitizer.js:356-408): split file content
into YAML sections by scanning lines. -/
def splitIntoYamlSections (content : String) : List String :=
  if content == "" then []
  else finalizeSt ((splitLines content).foldl splitStep ⟨[], "", false⟩)

/-- Concatenation of a line list with a newline terminator appended to every
line; this is what the scanner's accumulator holds. -/
def joinNl : List String → String
  | [] => ""
  | l :: ls => (l ++ "\n") ++ joinNl ls

/-- JavaScript `array.join("")`. -/
def joinAll : List String → String
  | [] => ""
  | s :: ss => s ++ joinAll ss

/-- Specification-side description of the Section partition (spec §3, §4.3):
group the lines, starting a new group at every top-level line.  `chunksAux`
carries the (non-empty) current group. -/
def chunksAux (cur : List String) : List String → List (List String)
  | [] => [cur]
  | l :: ls =>
    if topLevel l then cur :: chunksAux [l] ls else chunksAux (cur ++ [l]) ls

/-- Specification-side Section partition of a line list. -/
def chunks : List String → List (List String)
  | [] => []
  | l :: ls => chunksAux [l] ls

/-- The section-level test `section.match(/^\s*capabilities:/mi)` of
src/sanitizer.js:177: some line of the section matches. -/
def sectionIsCapabilities (s : String) : Bool :=
  (splitLines s).any capsLineCI

/-- The section-level test `s.match(/^\s*mode:/mi)` of src/sanitizer.js:203:
some line of the section matches. -/
def sectionHasMode (s : String) : Bool :=
  (splitLines s).any modeLineCI

/-- The number of matches of `content.match(/^\s*capabilities:/gm)`
(src/sanitizer.js:155); with the `g`/`m` flags this is the number of lines
whose whitespace-stripped start is the literal `capabilities:`. -/
def countCapabilitiesMatches (content : String) : Nat :=
  ((splitLines content).filter capsLineCS).length

/-- `[A-Za-z0-9_]`, the JavaScript regex class `\w`. -/
def isWordChar (c : Char) : Bool := c.isAlpha || c.isDigit || c = '_'

/-- Continuation of the `/^\w+:/` match after its first word character:
further word characters followed by a colon. -/
def wordColonTail : List Char → Bool
  | [] => false
  | c :: cs => if c = ':' then true else isWordChar c && wordColonTail cs

/-- Whether the anchored JavaScript regex `/^\w+:/` matches `s`
(src/sanitizer.js:422): one or more word characters followed by `:` at the
very start of the string. -/
def startsWithWordColon (s : String) : Bool :=
  match s.data with
  | [] => false
  | c :: cs => isWordChar c && wordColonTail cs

/-- JavaScript `array.join(sep)`. -/
def sepJoin (sep : String) : List String → String
  | [] => ""
  | [l] => l
  | l :: ls => l ++ sep ++ sepJoin sep ls

/-- The fragment wrapper of src/sanitizer.js:427: indent every line by two
spaces under a synthetic `temp_root:` key. -/
def wrapSection (s : String) : String :=
  "temp_root:" ++ "\n" ++ sepJoin "\n" ((splitLines s).map (fun line => "  " ++ line))

/-- `validateYamlSection` (src/sanitizer.js:415-434), parametrised by the
external js-yaml parser: `load str = true` means `yaml.load(str)` returns
without throwing.  The result is the `valid` flag of the record the
JavaScript function returns. -/
def validateYamlSection (load : String → Bool) (s : String) : Bool :=
  if s == "" || !strContains s ':' then true
  else if startsWithStr "---" (jsTrim s) || !startsWithWordColon (jsTrim s) then
    load s
  else
    load (wrapSection s)

/-- Flow-bracket balance check, the heart of `specYamlLoad`. -/
def bracketBal : List Char → Nat → Bool
  | [], 0 => true
  | [], _ + 1 => false
  | '[' :: cs, n => bracketBal cs (n + 1)
  | ']' :: _, 0 => false
  | ']' :: cs, n + 1 => bracketBal cs n
  | _ :: cs, n => bracketBal cs n

/-- Modelled from the spec: the js-yaml `yaml.load` parser invoked at
src/sanitizer.js:424/428 is an external library whose code is not part of
this repository; only its callers are.  The specification characterises it
solely through its scenarios (§4.4, §8): plain nested key/value fragments
such as `mode: code` or `capabilities:\n  a: true` parse successfully
(directly or after the nesting wrap), while the one failing example is the
unterminated flow sequence `capabilities:\n  b: [unterminated`.  We model
load success as balancedness of the flow-sequence brackets. -/
def specYamlLoad (s : String) : Bool := bracketBal s.data 0

/-- JavaScript `Array.prototype.findIndex`, as an `Option Nat`
(`-1` becomes `none`). -/
def findIndexOpt (p : α → Bool) : List α → Option Nat
  | [] => none
  | a :: l => if p a then some 0 else (findIndexOpt p l).map (· + 1)

/-- Outcome of `fixDuplicateCapabilities` on one file's content
(src/sanitizer.js:150-242):

* `noAction`: at most one `capabilities:` line counted — file skipped;
* `backupFailed`: `createBackup` failed — failure recorded, no change;
* `singleSection`: more than one counted line but at most one capabilities
  section — nothing further happens (a backup was made);
* `noValidSection`: no capabilities section validates — failure, no change;
* `noModeAnchor`: no other section matches `mode:` — failure, no change;
* `writeUnchanged n`: `n` was written but the read-back checksum equals the
  original (only possible when `n` equals the old content) — failure;
* `fixed n`: `n` was written and differs from the original — success. -/
inductive FixResult where
  | noAction
  | backupFailed
  | singleSection
  | noValidSection
  | noModeAnchor
  | writeUnchanged (newContent : String)
  | fixed (newContent : String)
deriving DecidableEq

/-- The `capabilitiesSections` array of src/sanitizer.js:173-182: the
sections matching `/^\s*capabilities:/mi`, in order. -/
def capabilitiesSectionsOf (content : String) : List String :=
  (splitIntoYamlSections content).filter sectionIsCapabilities

/-- The `otherSections` array of src/sanitizer.js:173-182. -/
def otherSectionsOf (content : String) : List String :=
  (splitIntoYamlSections content).filter (fun s => !sectionIsCapabilities s)

/-- The `newContent` built at src/sanitizer.js:207-211 from the chosen valid
capabilities section `v` and the mode-anchor index `m`. -/
def rebuiltContent (v : String) (m : Nat) (content : String) : String :=
  joinAll ((otherSectionsOf content).take (m + 1) ++
    v :: (otherSectionsOf content).drop (m + 1))

/-- Per-file content transformation of `fixDuplicateCapabilities`
(src/sanitizer.js:150-242).  `backupOk` tells whether `createBackup`
succeeds when invoked; `load` is the js-yaml oracle. -/
def fixFileContent (load : String → Bool) (backupOk : Bool) (content : String) :
    FixResult :=
  if countCapabilitiesMatches content ≤ 1 then .noAction
  else if !backupOk then .backupFailed
  else if (capabilitiesSectionsOf content).length ≤ 1 then .singleSection
  else
    match (capabilitiesSectionsOf content).find? (validateYamlSection load) with
    | none => .noValidSection
    | some validCapabilitiesSection =>
      match findIndexOpt sectionHasMode (otherSectionsOf content) with
      | none => .noModeAnchor
      | some modeIndex =>
        let newContent := rebuiltContent validCapabilitiesSection modeIndex content
        if newContent == content then .writeUnchanged newContent
        else .fixed newContent

/-- The file content after the per-file processing (the write happens in the
`writeUnchanged`/`fixed` cases, src/sanitizer.js:217). -/
def fixedContent : FixResult → String → String
  | .writeUnchanged n, _ => n
  | .fixed n, _ => n
  | _, c => c

/-- Whether the per-file processing sets `allSuccessful = false`. -/
def fixFailed : FixResult → Bool
  | .backupFailed => true
  | .noValidSection => true
  | .noModeAnchor => true
  | .writeUnchanged _ => true
  | _ => false

/-- Whether `createBackup` was invoked for the file (src/sanitizer.js:164). -/
def backupAttempted : FixResult → Bool
  | .noAction => false
  | _ => true

/-- Whether a backup file exists after the per-file processing. -/
def backupMade : FixResult → Bool
  | .noAction => false
  | .backupFailed => false
  | _ => true

/-- Whether `fs.writeFileSync` was reached for the file. -/
def isRewrite : FixResult → Bool
  | .writeUnchanged _ => true
  | .fixed _ => true
  | _ => false

/-- `SUPPORTED_AI_TOOL_DIRS` (src/sanitizer.js:25-30); all entries but
`.roo` are commented out. -/
def SUPPORTED_AI_TOOL_DIRS : List String := [".roo"]

/-- `SYSTEM_PROMPT_FILES` (src/sanitizer.js:35-41). -/
def SYSTEM_PROMPT_FILES : List String :=
  ["system-prompt-architect", "system-prompt-ask", "system-prompt-code",
   "system-prompt-debug", "system-prompt-test"]

/-- `getAllowedFilePaths` (src/sanitizer.js:47-51); `path.join(dir, file)`
on these POSIX-relative components is `dir ++ "/" ++ file`. -/
def getAllowedFilePaths : List String :=
  SUPPORTED_AI_TOOL_DIRS.flatMap (fun dir =>
    SYSTEM_PROMPT_FILES.map (fun file => dir ++ "/" ++ file))

/-- `ALLOWED_SYSTEM_PROMPT_FILES` (src/sanitizer.js:54). -/
def ALLOWED_SYSTEM_PROMPT_FILES : List String := getAllowedFilePaths

/-- JavaScript `array.join("/")` at the character level. -/
def joinSlash : List (List Char) → List Char
  | [] => []
  | [x] => x
  | x :: xs => x ++ '/' :: joinSlash xs

/-- POSIX path-segment normalisation for an absolute path: empty and `.`
segments vanish and `..` pops the accumulator (clamping at the root, as
Node's resolver does for absolute paths). -/
def normSegs (acc : List (List Char)) : List (List Char) → List (List Char)
  | [] => acc
  | s :: rest =>
    if s = [] ∨ s = ['.'] then normSegs acc rest
    else if s = ['.', '.'] then normSegs acc.dropLast rest
    else normSegs (acc ++ [s]) rest

/-- Resolution of an absolute POSIX path to its canonical slash-joined
segment form, the common core of the `path.normalize`/`path.resolve` model. -/
def resolveAbs (p : String) : String :=
  String.mk ('/' :: joinSlash (normSegs [] (splitOnChar '/' p.data)))

/-- Whether a POSIX path is absolute. -/
def isAbsPath (p : String) : Bool := startsWithStr "/" p

/-- Model of Node `path.normalize` for the paths the theorems quantify over:
on absolute POSIX paths it canonicalises the segments.  (Relative paths are
returned unchanged; the verified statements restrict the base to normalised
absolute paths, where this model is exact.) -/
def pathNormalize (p : String) : String :=
  if isAbsPath p then resolveAbs p else p

/-- Model of Node `path.resolve(base, rel)` for an absolute `base`: an
absolute `rel` wins, otherwise `rel` is resolved against `base`.  (A
relative `base` would involve the process working directory; the verified
statements restrict to absolute bases.) -/
def pathResolve (base rel : String) : String :=
  if isAbsPath rel then resolveAbs rel
  else if isAbsPath base then resolveAbs (base ++ "/" ++ rel)
  else base ++ "/" ++ rel

/-- `validatePath` (src/sanitizer.js:62-85): `none` models the `null`
sentinel. -/
def validatePath (basePath filePath : String) : Option String :=
  if basePath == "" || filePath == "" then none
  else
    let normalizedBase := pathNormalize basePath
    let targetPath := pathResolve normalizedBase filePath
    if !startsWithStr normalizedBase targetPath then none
    else if !(ALLOWED_SYSTEM_PROMPT_FILES.contains filePath) then none
    else some targetPath

/-- Per-file filesystem environment for a driver run: whether the file
exists, whether reading it throws, its content, whether `createBackup`
succeeds, and whether writing throws.  The error flags model the exception
points inside the per-file `try` block. -/
structure FileEnv where
  present : Bool
  readThrows : Bool
  content : String
  backupOk : Bool
  writeThrows : Bool
deriving DecidableEq

/-- Outcome of the fix loop body for one allow-listed file. -/
inductive FileOutcome where
  | pathRejected
  | missing
  | readError
  | writeError
  | processed (r : FixResult)
deriving DecidableEq

/-- The body of the per-file loop of `fixDuplicateCapabilities`
(src/sanitizer.js:137-243): validate the path, skip missing files, and run
the repair on the content, catching read/write exceptions. -/
def processFile (load : String → Bool) (fe : FileEnv) (root file : String) :
    FileOutcome :=
  match validatePath root file with
  | none => .pathRejected
  | some _ =>
    if !fe.present then .missing
    else if fe.readThrows then .readError
    else
      match fixFileContent load fe.backupOk fe.content with
      | .fixed n => if fe.writeThrows then .writeError else .processed (.fixed n)
      | .writeUnchanged n =>
        if fe.writeThrows then .writeError else .processed (.writeUnchanged n)
      | r => .processed r

/-- Whether the outcome leaves `allSuccessful` intact. -/
def outcomeOk : FileOutcome → Bool
  | .pathRejected => false
  | .missing => true
  | .readError => false
  | .writeError => false
  | .processed r => !fixFailed r

/-- `fixDuplicateCapabilities` (src/sanitizer.js:113-255): after the project
root preconditions, every allow-listed file is processed in order and the
outcomes are folded into the `allSuccessful` boolean. -/
def fixDuplicateCapabilities (load : String → Bool) (rootExists rootIsDir : Bool)
    (root : String) (env : String → FileEnv) : Bool :=
  if !rootExists then false
  else if !rootIsDir then false
  else
    ALLOWED_SYSTEM_PROMPT_FILES.foldl
      (fun allSuccessful file =>
        allSuccessful && outcomeOk (processFile load (env file) root file)) true

/-- The per-file validation verdict of `validateFilesWithYaml`
(src/sanitizer.js:297-334) on a file's content: fail on more than one
`capabilities:` line, otherwise require every colon-containing section to
validate. -/
def validateFileCheck (load : String → Bool) (content : String) : Bool :=
  if 1 < countCapabilitiesMatches content then false
  else
    ((splitIntoYamlSections content).filter (fun s => strContains s ':')).all
      (validateYamlSection load)

/-- The body of the per-file loop of `validateFilesWithYaml`
(src/sanitizer.js:284-339); the validation pass never writes. -/
def processFileValidate (load : String → Bool) (fe : FileEnv) (root file : String) :
    Bool :=
  match validatePath root file with
  | none => false
  | some _ =>
    if !fe.present then true
    else if fe.readThrows then false
    else validateFileCheck load fe.content

/-- `validateFilesWithYaml` (src/sanitizer.js:262-349). -/
def validateFilesWithYaml (load : String → Bool) (rootExists rootIsDir : Bool)
    (root : String) (env : String → FileEnv) : Bool :=
  if !rootExists then false
  else if !rootIsDir then false
  else
    ALLOWED_SYSTEM_PROMPT_FILES.foldl
      (fun allValid file =>
        allValid && processFileValidate load (env file) root file) true

/-- The first line of a section (spec §3: a Capabilities/Mode Section is
recognised by its first line). -/
def headLine (s : String) : String := (splitLines s).headD ""

/-- Apply `f` to the last element of a list, if any. -/
def modifyLast (f : α → α) : List α → List α
  | [] => []
  | [a] => [f a]
  | a :: b :: as => a :: modifyLast f (b :: as)

/-- Whether `target` lies within the directory `base` (for a normalised
absolute `base` other than the root): it is `base` itself or a proper
descendant. -/
def insideBase (base target : String) : Bool :=
  target == base || startsWithStr (base ++ "/") target

/-- A normalised absolute POSIX path: absolute and a fixed point of segment
resolution (no `.`/`..`/empty segments, no trailing slash). -/
def cleanAbs (p : String) : Bool := isAbsPath p && (resolveAbs p == p)

/-! ### Basic string lemmas -/

theorem str_data_append (a b : String) : (a ++ b).data = a.data ++ b.data := by
  cases a; cases b; rfl

theorem str_eq_of_data {a b : String} (h : a.data = b.data) : a = b := by
  exact congrArg String.mk h

theorem str_append_empty (s : String) : s ++ "" = s := by
  apply str_eq_of_data; rw [str_data_append]; exact List.append_nil s.data

theorem str_empty_append (s : String) : "" ++ s = s := by
  apply str_eq_of_data; rw [str_data_append]; rfl

theorem joinNl_cons_data (l : String) (ls : List String) :
    (joinNl (l :: ls)).data = l.data ++ '\n' :: (joinNl ls).data := by
  rw [joinNl, str_data_append, str_data_append]
  simp

theorem joinNl_ne_empty (l : String) (ls : List String) : joinNl (l :: ls) ≠ "" := by
  intro h
  have hd : (joinNl (l :: ls)).data = [] := by rw [h]
  rw [joinNl_cons_data] at hd
  simp at hd

theorem joinNl_single (l : String) : joinNl [l] = l ++ "\n" := by
  rw [joinNl, joinNl, str_append_empty]

theorem joinNl_append (a b : List String) : joinNl (a ++ b) = joinNl a ++ joinNl b := by
  induction a with
  | nil => rw [List.nil_append, joinNl, str_empty_append]
  | cons l ls ih =>
    rw [List.cons_append, joinNl, joinNl, ih]
    simp [String.append_assoc]

theorem joinAll_map_joinNl (css : List (List String)) :
    joinAll (css.map joinNl) = joinNl css.flatten := by
  induction css with
  | nil => rfl
  | cons cs css ih =>
    rw [List.map_cons, joinAll, List.flatten_cons, joinNl_append, ih]

/-! ### Lemmas about `splitOnChar` and `splitLines` -/

theorem splitOnChar_ne_nil (sep : Char) (d : List Char) : splitOnChar sep d ≠ [] := by
  cases d with
  | nil => simp [splitOnChar]
  | cons c cs =>
    rw [splitOnChar]
    by_cases h : c = sep
    · simp [h]
    · simp only [h, if_false]
      cases splitOnChar sep cs <;> simp

theorem splitOnChar_cons_self (sep : Char) (cs : List Char) :
    splitOnChar sep (sep :: cs) = [] :: splitOnChar sep cs := by
  simp [splitOnChar]

theorem splitOnChar_cons_of_ne (sep c : Char) (cs : List Char) (h : ¬c = sep) :
    splitOnChar sep (c :: cs) =
      match splitOnChar sep cs with
      | [] => [[c]]
      | l :: ls => (c :: l) :: ls := by
  rw [splitOnChar, if_neg h]

theorem splitOnChar_append_sep (sep : Char) (x y : List Char) :
    splitOnChar sep (x ++ sep :: y) = splitOnChar sep x ++ splitOnChar sep y := by
  induction x with
  | nil =>
    rw [List.nil_append, splitOnChar_cons_self]
    rfl
  | cons c x ih =>
    by_cases h : c = sep
    · subst h
      rw [List.cons_append, splitOnChar_cons_self, splitOnChar_cons_self, ih,
        List.cons_append]
    · rw [List.cons_append, splitOnChar_cons_of_ne sep c _ h,
        splitOnChar_cons_of_ne sep c _ h, ih]
      obtain ⟨l, ls, hx⟩ : ∃ l ls, splitOnChar sep x = l :: ls := by
        cases hc : splitOnChar sep x with
        | nil => exact absurd hc (splitOnChar_ne_nil sep x)
        | cons l ls => exact ⟨l, ls, rfl⟩
      rw [hx]
      simp

theorem splitOnChar_not_mem (sep : Char) (d : List Char) :
    ∀ p ∈ splitOnChar sep d, sep ∉ p := by
  induction d with
  | nil =>
    intro p hp
    rw [splitOnChar, List.mem_singleton] at hp
    subst hp; simp
  | cons c cs ih =>
    intro p hp
    rw [splitOnChar] at hp
    by_cases h : c = sep
    · rw [if_pos h, List.mem_cons] at hp
      rcases hp with hp | hp
      · subst hp; simp
      · exact ih p hp
    · rw [if_neg h] at hp
      obtain ⟨l, ls, hc⟩ : ∃ l ls, splitOnChar sep cs = l :: ls := by
        cases hc : splitOnChar sep cs with
        | nil => exact absurd hc (splitOnChar_ne_nil sep cs)
        | cons l ls => exact ⟨l, ls, rfl⟩
      rw [hc, List.mem_cons] at hp
      rcases hp with hp | hp
      · subst hp
        intro hm
        rcases List.mem_cons.mp hm with hm | hm
        · exact h hm.symm
        · exact ih l (by rw [hc]; exact List.mem_cons_self l ls) hm
      · exact ih p (by rw [hc]; exact List.mem_cons_of_mem l hp)

theorem splitOnChar_of_not_mem (sep : Char) (d : List Char) (h : sep ∉ d) :
    splitOnChar sep d = [d] := by
  induction d with
  | nil => rfl
  | cons c cs ih =>
    rw [splitOnChar,
      if_neg (fun hc => h (by rw [← hc]; exact List.mem_cons_self c cs)),
      ih (fun hm => h (List.mem_cons_of_mem c hm))]

theorem splitLines_ne_nil (s : String) : splitLines s ≠ [] := by
  rw [splitLines]
  intro h
  exact splitOnChar_ne_nil '\n' s.data (List.map_eq_nil_iff.mp h)

theorem splitLines_no_nl (s : String) : ∀ l ∈ splitLines s, strContains l '\n' = false := by
  intro l hl
  rw [splitLines, List.mem_map] at hl
  obtain ⟨p, hp, rfl⟩ := hl
  have := splitOnChar_not_mem '\n' s.data p hp
  rw [strContains]
  simpa using this

theorem splitLines_joinNl : ∀ ls : List String,
    (∀ l ∈ ls, strContains l '\n' = false) → ls ≠ [] →
    splitLines (joinNl ls) = ls ++ [""] := by
  intro ls
  induction ls with
  | nil => intro _ h; exact absurd rfl h
  | cons l ls ih =>
    intro hnl _
    have hlnl : '\n' ∉ l.data := by
      have := hnl l (List.mem_cons_self l ls)
      rw [strContains] at this
      simpa using this
    rw [splitLines, joinNl_cons_data, splitOnChar_append_sep,
      splitOnChar_of_not_mem '\n' l.data hlnl]
    cases ls with
    | nil =>
      rw [joinNl]
      show ([l.data] ++ splitOnChar '\n' ("" : String).data).map (fun p => String.mk p) = _
      rfl
    | cons l' ls' =>
      have hrec := ih (fun x hx => hnl x (List.mem_cons_of_mem l hx)) (by simp)
      rw [splitLines] at hrec
      rw [List.map_append, hrec]
      rfl

/-! ### Characterisation of the section scanner -/

theorem joinNl_snoc (ls : List String) (l : String) :
    joinNl (ls ++ [l]) = joinNl ls ++ l ++ "\n" := by
  rw [joinNl_append, joinNl_single, ← String.append_assoc]

theorem topLevel_parts {l : String} (ht : topLevel l = true) :
    jsBlank l = false ∧ startsWithWs l = false := by
  rw [topLevel, Bool.and_eq_true, Bool.not_eq_true', Bool.not_eq_true'] at ht
  exact ht

theorem splitStep_top (st : SplitSt) (l : String) (hc : st.cur ≠ "")
    (ht : topLevel l = true) :
    splitStep st l = ⟨st.sections ++ [st.cur], l ++ "\n", strContains l ':'⟩ := by
  obtain ⟨hblk, hws⟩ := topLevel_parts ht
  have hb : (jsTrim l == "") = false := by rw [jsBlank] at hblk; exact hblk
  have hc' : (st.cur == "") = false := beq_eq_false_iff_ne.mpr hc
  cases hin : st.inYaml with
  | false => simp [splitStep, hb, hws, hc', hin]
  | true => simp [splitStep, hb, hws, hc', hin]

theorem splitStep_cont (st : SplitSt) (l : String) (hc : st.cur ≠ "")
    (ht : topLevel l = false) :
    splitStep st l = ⟨st.sections, st.cur ++ l ++ "\n", st.inYaml⟩ := by
  have hc' : (st.cur == "") = false := beq_eq_false_iff_ne.mpr hc
  cases hblk : jsBlank l with
  | true =>
    have hb : (jsTrim l == "") = true := by rw [jsBlank] at hblk; exact hblk
    simp [splitStep, hc', hb]
  | false =>
    have hws : startsWithWs l = true := by
      rw [topLevel, hblk] at ht
      simpa using ht
    have hb : (jsTrim l == "") = false := by rw [jsBlank] at hblk; exact hblk
    simp [splitStep, hc', hb, hws]

theorem splitStep_skip (secs : List String) (b : Bool) (l : String)
    (hb : jsBlank l = true) : splitStep ⟨secs, "", b⟩ l = ⟨secs, "", b⟩ := by
  have hb' : (jsTrim l == "") = true := by rw [jsBlank] at hb; exact hb
  simp [splitStep, hb']

theorem splitStep_start (l : String) (hb : jsBlank l = false) :
    ∃ b', splitStep ⟨[], "", false⟩ l = ⟨[], l ++ "\n", b'⟩ := by
  have hb' : (jsTrim l == "") = false := by rw [jsBlank] at hb; exact hb
  cases hws : startsWithWs l with
  | false =>
    exact ⟨strContains l ':', by simp [splitStep, hb', hws]⟩
  | true =>
    refine ⟨false, ?_⟩
    simp [splitStep, hb', hws, str_empty_append]

theorem joinNl_ne_empty_of_ne_nil {curLs : List String} (h : curLs ≠ []) :
    joinNl curLs ≠ "" := by
  cases curLs with
  | nil => exact absurd rfl h
  | cons x xs => exact joinNl_ne_empty x xs

theorem fold_run : ∀ (ls secs curLs : List String) (b : Bool), curLs ≠ [] →
    finalizeSt (List.foldl splitStep ⟨secs, joinNl curLs, b⟩ ls) =
      secs ++ (chunksAux curLs ls).map joinNl := by
  intro ls
  induction ls with
  | nil =>
    intro secs curLs b h
    rw [List.foldl_nil, finalizeSt]
    have hne : (joinNl curLs == "") = false :=
      beq_eq_false_iff_ne.mpr (joinNl_ne_empty_of_ne_nil h)
    rw [hne]
    simp [chunksAux]
  | cons l ls ih =>
    intro secs curLs b h
    have hcur : joinNl curLs ≠ "" := joinNl_ne_empty_of_ne_nil h
    rw [List.foldl_cons]
    cases ht : topLevel l with
    | true =>
      rw [splitStep_top _ _ hcur ht,
        show (⟨secs ++ [joinNl curLs], l ++ "\n", strContains l ':'⟩ : SplitSt) =
          ⟨secs ++ [joinNl curLs], joinNl [l], strContains l ':'⟩ from by
            rw [joinNl_single],
        ih (secs ++ [joinNl curLs]) [l] _ (by simp), chunksAux]
      simp [ht]
    | false =>
      rw [splitStep_cont _ _ hcur ht,
        show (⟨secs, joinNl curLs ++ l ++ "\n", b⟩ : SplitSt) =
          ⟨secs, joinNl (curLs ++ [l]), b⟩ from by
            rw [joinNl_snoc],
        ih secs (curLs ++ [l]) _ (by simp), chunksAux]
      simp [ht]

theorem run_init (ls : List String) :
    finalizeSt (List.foldl splitStep ⟨[], "", false⟩ ls) =
      (chunks (ls.dropWhile jsBlank)).map joinNl := by
  induction ls with
  | nil => rfl
  | cons l ls ih =>
    cases hb : jsBlank l with
    | true =>
      rw [List.foldl_cons, splitStep_skip _ _ _ hb, List.dropWhile_cons]
      simp only [hb, if_true]
      exact ih
    | false =>
      rw [List.foldl_cons]
      obtain ⟨b', hstep⟩ := splitStep_start l hb
      rw [hstep, List.dropWhile_cons]
      simp only [hb, Bool.false_eq_true, if_false]
      rw [chunks,
        show (⟨[], l ++ "\n", b'⟩ : SplitSt) = ⟨[], joinNl [l], b'⟩ from by
          rw [joinNl_single],
        fold_run ls [] [l] b' (by simp), List.nil_append]

/-- The scanner of src/sanitizer.js:356-408 computes exactly the Section
partition of spec §4.3: the lines of the content, leading blank lines
dropped, grouped at top-level lines, each group concatenated with a newline
terminator per line. -/
theorem splitIntoYamlSections_eq_chunks (c : String) :
    splitIntoYamlSections c =
      (chunks ((splitLines c).dropWhile jsBlank)).map joinNl := by
  rw [splitIntoYamlSections]
  by_cases h : c = ""
  · subst h; rfl
  · have hne : (c == "") = false := beq_eq_false_iff_ne.mpr h
    rw [hne]
    simp only [Bool.false_eq_true, if_false]
    exact run_init _

/-! ### Lemmas about `chunks` -/

theorem chunksAux_ne_nil (cur : List String) (ls : List String) :
    chunksAux cur ls ≠ [] := by
  induction ls generalizing cur with
  | nil => simp [chunksAux]
  | cons l ls ih =>
    rw [chunksAux]
    cases ht : topLevel l with
    | true => simp [ht]
    | false => simp only [ht, Bool.false_eq_true, if_false]; exact ih _

theorem chunksAux_flatten (cur : List String) (ls : List String) :
    (chunksAux cur ls).flatten = cur ++ ls := by
  induction ls generalizing cur with
  | nil => simp [chunksAux]
  | cons l ls ih =>
    rw [chunksAux]
    cases ht : topLevel l with
    | true => simp [ht, ih]
    | false => simp only [ht, Bool.false_eq_true, if_false]; rw [ih]; simp

theorem chunks_flatten (ls : List String) : (chunks ls).flatten = ls := by
  cases ls with
  | nil => rfl
  | cons l ls => rw [chunks, chunksAux_flatten]; rfl

theorem chunksAux_mem_ne_nil (ls : List String) : ∀ (cur : List String), cur ≠ [] →
    ∀ b ∈ chunksAux cur ls, b ≠ [] := by
  induction ls with
  | nil =>
    intro cur hcur b hb
    rw [chunksAux, List.mem_singleton] at hb
    subst hb; exact hcur
  | cons l ls ih =>
    intro cur hcur b hb
    rw [chunksAux] at hb
    cases ht : topLevel l with
    | true =>
      rw [ht, if_pos rfl, List.mem_cons] at hb
      rcases hb with hb | hb
      · subst hb; exact hcur
      · exact ih [l] (by simp) b hb
    | false =>
      rw [ht] at hb
      simp only [Bool.false_eq_true, if_false] at hb
      exact ih (cur ++ [l]) (by simp) b hb

theorem chunks_mem_ne_nil (ls : List String) : ∀ b ∈ chunks ls, b ≠ [] := by
  cases ls with
  | nil => intro b hb; simp [chunks] at hb
  | cons l ls => exact chunksAux_mem_ne_nil ls [l] (by simp)

/-! ### Re-splitting a concatenation of blocks -/

theorem chunksAux_absorb : ∀ (t : List String), (∀ l ∈ t, topLevel l = false) →
    ∀ (cur X : List String), chunksAux cur (t ++ X) = chunksAux (cur ++ t) X := by
  intro t
  induction t with
  | nil => intro _ cur X; rw [List.nil_append, List.append_nil]
  | cons l t ih =>
    intro ht cur X
    have hl : topLevel l = false := ht l (List.mem_cons_self l t)
    rw [List.cons_append, chunksAux, hl]
    simp only [Bool.false_eq_true, if_false]
    rw [ih (fun x hx => ht x (List.mem_cons_of_mem l hx)) (cur ++ [l]) X]
    congr 1
    simp

theorem chunksAux_master : ∀ (bs : List (List String)) (curg : List (List String)),
    curg ≠ [] →
    (∀ b ∈ bs, b ≠ []) →
    (∀ b ∈ bs, ∀ l ∈ b.tail, topLevel l = false) →
    ∃ groups : List (List (List String)),
      chunksAux curg.flatten bs.flatten = groups.map List.flatten ∧
      groups.flatten = curg ++ bs ∧ ∀ g ∈ groups, g ≠ [] := by
  intro bs
  induction bs with
  | nil =>
    intro curg hcurg _ _
    refine ⟨[curg], ?_, by simp, by simpa using hcurg⟩
    simp [chunksAux]
  | cons b bs ih =>
    intro curg hcurg hne htails
    obtain ⟨h, t, rfl⟩ : ∃ h t, b = h :: t := by
      cases hb : b with
      | nil => exact absurd hb (hne b (List.mem_cons_self b bs))
      | cons h t => exact ⟨h, t, rfl⟩
    have htail : ∀ l ∈ t, topLevel l = false := fun l hl =>
      htails (h :: t) (List.mem_cons_self _ bs) l hl
    have hne' : ∀ x ∈ bs, x ≠ [] := fun x hx => hne x (List.mem_cons_of_mem _ hx)
    have htails' : ∀ x ∈ bs, ∀ l ∈ x.tail, topLevel l = false := fun x hx =>
      htails x (List.mem_cons_of_mem _ hx)
    rw [List.flatten_cons, List.cons_append]
    cases hh : topLevel h with
    | true =>
      rw [chunksAux, hh, if_pos rfl, chunksAux_absorb t htail [h] bs.flatten]
      obtain ⟨groups', hG1, hG2, hG3⟩ := ih [h :: t] (by simp) hne' htails'
      rw [show ([h] ++ t : List String) = ([h :: t] : List (List String)).flatten from by
        simp]
      rw [hG1]
      refine ⟨curg :: groups', by rw [List.map_cons], ?_, ?_⟩
      · rw [List.flatten_cons, hG2, List.singleton_append]
      · intro g hg
        rcases List.mem_cons.mp hg with hg | hg
        · subst hg; exact hcurg
        · exact hG3 g hg
    | false =>
      have hall : ∀ l ∈ h :: t, topLevel l = false := by
        intro l hl
        rcases List.mem_cons.mp hl with hl | hl
        · subst hl; exact hh
        · exact htail l hl
      rw [← List.cons_append, chunksAux_absorb (h :: t) hall curg.flatten bs.flatten]
      obtain ⟨groups', hG1, hG2, hG3⟩ := ih (curg ++ [h :: t]) (by simp) hne' htails'
      rw [show curg.flatten ++ (h :: t) = (curg ++ [h :: t]).flatten from by
        rw [List.flatten_append]; simp]
      rw [hG1]
      refine ⟨groups', rfl, ?_, hG3⟩
      rw [hG2, List.append_assoc, List.singleton_append]

theorem modifyLast_cons_of_ne_nil (f : α → α) (a : α) (as : List α) (h : as ≠ []) :
    modifyLast f (a :: as) = a :: modifyLast f as := by
  cases as with
  | nil => exact absurd rfl h
  | cons b bs => rfl

theorem chunksAux_append_end : ∀ (X cur t : List String),
    (∀ l ∈ t, topLevel l = false) →
    chunksAux cur (X ++ t) = modifyLast (fun b => b ++ t) (chunksAux cur X) := by
  intro X
  induction X with
  | nil =>
    intro cur t ht
    have h2 := chunksAux_absorb t ht cur []
    rw [List.append_nil] at h2
    rw [List.nil_append, h2, chunksAux, chunksAux]
    rfl
  | cons l X ih =>
    intro cur t ht
    rw [List.cons_append, chunksAux, chunksAux]
    cases hl : topLevel l with
    | true =>
      rw [if_pos rfl, if_pos rfl, ih [l] t ht,
        modifyLast_cons_of_ne_nil _ _ _ (chunksAux_ne_nil [l] X)]
    | false =>
      rw [if_neg (by simp), if_neg (by simp)]
      exact ih (cur ++ [l]) t ht

theorem chunksAux_head_nonblank : ∀ (ls cur : List String), cur ≠ [] →
    jsBlank (cur.headD "") = false →
    ∀ b ∈ chunksAux cur ls, jsBlank (b.headD "") = false := by
  intro ls
  induction ls with
  | nil =>
    intro cur _ hh b hb
    rw [chunksAux, List.mem_singleton] at hb
    subst hb; exact hh
  | cons l ls ih =>
    intro cur hc hh b hb
    rw [chunksAux] at hb
    cases hl : topLevel l with
    | true =>
      rw [if_pos hl, List.mem_cons] at hb
      rcases hb with hb | hb
      · subst hb; exact hh
      · exact ih [l] (by simp) (by simpa using (topLevel_parts hl).1) b hb
    | false =>
      rw [if_neg (by rw [hl]; simp)] at hb
      refine ih (cur ++ [l]) (by simp) ?_ b hb
      cases cur with
      | nil => exact absurd rfl hc
      | cons c cs => simpa using hh

theorem chunksAux_tail_nontop : ∀ (ls cur : List String), cur ≠ [] →
    (∀ x ∈ cur.tail, topLevel x = false) →
    ∀ b ∈ chunksAux cur ls, ∀ x ∈ b.tail, topLevel x = false := by
  intro ls
  induction ls with
  | nil =>
    intro cur _ hh b hb
    rw [chunksAux, List.mem_singleton] at hb
    subst hb; exact hh
  | cons l ls ih =>
    intro cur hc hh b hb
    rw [chunksAux] at hb
    cases hl : topLevel l with
    | true =>
      rw [if_pos hl, List.mem_cons] at hb
      rcases hb with hb | hb
      · subst hb; exact hh
      · exact ih [l] (by simp) (by simp) b hb
    | false =>
      rw [if_neg (by rw [hl]; simp)] at hb
      refine ih (cur ++ [l]) (by simp) ?_ b hb
      cases cur with
      | nil => exact absurd rfl hc
      | cons c cs =>
        intro x hx
        rw [List.cons_append, List.tail_cons] at hx
        rcases List.mem_append.mp hx with hx | hx
        · exact hh x (by simpa using hx)
        · rw [List.mem_singleton] at hx
          subst hx; exact hl

/-! ### Section predicates on chunk concatenations -/

theorem sectionAny_joinNl (p : String → Bool) (hp : p "" = false) :
    ∀ d : List String, (∀ l ∈ d, strContains l '\n' = false) →
    (splitLines (joinNl d)).any p = d.any p := by
  intro d h
  cases d with
  | nil => simp [joinNl, splitLines, splitOnChar, hp]
  | cons l d =>
    rw [splitLines_joinNl _ h (by simp), List.any_append]
    simp [hp]

theorem sectionIsCapabilities_joinNl (d : List String)
    (h : ∀ l ∈ d, strContains l '\n' = false) :
    sectionIsCapabilities (joinNl d) = d.any capsLineCI := by
  rw [sectionIsCapabilities]
  exact sectionAny_joinNl capsLineCI (by decide) d h

theorem sectionHasMode_joinNl (d : List String)
    (h : ∀ l ∈ d, strContains l '\n' = false) :
    sectionHasMode (joinNl d) = d.any modeLineCI := by
  rw [sectionHasMode]
  exact sectionAny_joinNl modeLineCI (by decide) d h

theorem headLine_joinNl (l : String) (d : List String)
    (h : ∀ x ∈ l :: d, strContains x '\n' = false) :
    headLine (joinNl (l :: d)) = l := by
  rw [headLine, splitLines_joinNl _ h (by simp), List.cons_append]
  rfl

theorem chunk_lines_mem {c : String} {ch : List String}
    (hch : ch ∈ chunks ((splitLines c).dropWhile jsBlank)) :
    ∀ l ∈ ch, l ∈ splitLines c := by
  intro l hl
  have h1 : l ∈ (chunks ((splitLines c).dropWhile jsBlank)).flatten :=
    List.mem_flatten.mpr ⟨ch, hch, hl⟩
  rw [chunks_flatten] at h1
  exact (List.dropWhile_sublist jsBlank).subset h1

theorem chunk_lines_no_nl {c : String} {ch : List String}
    (hch : ch ∈ chunks ((splitLines c).dropWhile jsBlank)) :
    ∀ l ∈ ch, strContains l '\n' = false := fun l hl =>
  splitLines_no_nl c l (chunk_lines_mem hch l hl)

/-! ### Searching and counting -/

theorem find?_first (p : α → Bool) (d : α) : ∀ (l : List α) (v : α),
    l.find? p = some v →
    ∃ i, i < l.length ∧ l.getD i d = v ∧ p v = true ∧
      ∀ j, j < i → p (l.getD j d) = false := by
  intro l
  induction l with
  | nil => intro v h; simp [List.find?] at h
  | cons a l ih =>
    intro v h
    cases hp : p a with
    | true =>
      rw [List.find?_cons_of_pos _ hp] at h
      refine ⟨0, by simp, ?_, ?_, fun j hj => absurd hj (by omega)⟩
      · rw [List.getD_cons_zero]; injection h
      · injection h with h'; rw [← h']; exact hp
    | false =>
      rw [List.find?_cons_of_neg _ (by rw [hp]; simp)] at h
      obtain ⟨i, hi, hv, hpv, hprev⟩ := ih v h
      refine ⟨i + 1, by simpa using hi, by simpa using hv, hpv, ?_⟩
      intro j hj
      cases j with
      | zero => rw [List.getD_cons_zero]; exact hp
      | succ j => rw [List.getD_cons_succ]; exact hprev j (by omega)

theorem findIndexOpt_eq_none (p : α → Bool) : ∀ (l : List α),
    (∀ x ∈ l, p x = false) → findIndexOpt p l = none := by
  intro l
  induction l with
  | nil => intro _; rfl
  | cons a l ih =>
    intro h
    rw [findIndexOpt, if_neg (by rw [h a (List.mem_cons_self a l)]; simp),
      ih (fun x hx => h x (List.mem_cons_of_mem a hx))]
    rfl

theorem findIndexOpt_some (p : α → Bool) (d : α) : ∀ (l : List α) (m : Nat),
    findIndexOpt p l = some m →
    m < l.length ∧ p (l.getD m d) = true ∧ ∀ j, j < m → p (l.getD j d) = false := by
  intro l
  induction l with
  | nil => intro m h; simp [findIndexOpt] at h
  | cons a l ih =>
    intro m h
    cases hp : p a with
    | true =>
      rw [findIndexOpt, if_pos hp] at h
      injection h with h'
      subst h'
      exact ⟨by simp, by rw [List.getD_cons_zero]; exact hp,
        fun j hj => absurd hj (by omega)⟩
    | false =>
      rw [findIndexOpt, if_neg (by rw [hp]; simp)] at h
      obtain ⟨m', hm', rfl⟩ := Option.map_eq_some'.mp h
      obtain ⟨h1, h2, h3⟩ := ih m' hm'
      refine ⟨by simpa using h1, by simpa using h2, ?_⟩
      intro j hj
      cases j with
      | zero => rw [List.getD_cons_zero]; exact hp
      | succ j => rw [List.getD_cons_succ]; exact h3 j (by omega)

theorem countP_mono_of_imp (p q : α → Bool) : ∀ l : List α,
    (∀ x ∈ l, p x = true → q x = true) → l.countP p ≤ l.countP q := by
  intro l
  induction l with
  | nil => intro _; exact Nat.le_refl 0
  | cons a l ih =>
    intro h
    rw [List.countP_cons, List.countP_cons]
    have hrec := ih (fun x hx => h x (List.mem_cons_of_mem a hx))
    cases hp : p a with
    | false => simp only [Bool.false_eq_true, if_false]; omega
    | true =>
      rw [h a (List.mem_cons_self a l) hp]
      simp only [if_true]
      omega

theorem countP_group_le_flatten (q : List α → Bool) (p : α → Bool) :
    ∀ css : List (List α), (∀ b ∈ css, q b = true → 1 ≤ b.countP p) →
    css.countP q ≤ css.flatten.countP p := by
  intro css
  induction css with
  | nil => intro _; exact Nat.le_refl 0
  | cons b css ih =>
    intro hq
    rw [List.countP_cons, List.flatten_cons, List.countP_append]
    have hrec := ih (fun x hx => hq x (List.mem_cons_of_mem b hx))
    cases hb : q b with
    | false => simp only [Bool.false_eq_true, if_false]; omega
    | true =>
      have := hq b (List.mem_cons_self b css) hb
      simp only [if_true]
      omega

theorem bool_not_true {b : Bool} (h : (!b) = true) : b = false := by
  cases b
  · rfl
  · exact absurd h (by decide)

theorem filter_map_comm (f : α → β) (p : β → Bool) : ∀ l : List α,
    (l.map f).filter p = (l.filter (fun a => p (f a))).map f := by
  intro l
  induction l with
  | nil => rfl
  | cons a l ih =>
    rw [List.map_cons, List.filter_cons, List.filter_cons]
    cases hp : p (f a) with
    | true => rw [if_pos rfl, if_pos rfl, List.map_cons, ih]
    | false => rw [if_neg (by simp), if_neg (by simp)]; exact ih

theorem countP_map_comm (f : α → β) (p : β → Bool) (l : List α) :
    (l.map f).countP p = l.countP (fun a => p (f a)) := by
  rw [List.countP_eq_length_filter, List.countP_eq_length_filter, filter_map_comm,
    List.length_map]

theorem countP_modifyLast_eq (p : α → Bool) (f : α → α)
    (hf : ∀ a, p (f a) = p a) : ∀ l : List α, (modifyLast f l).countP p = l.countP p := by
  intro l
  induction l with
  | nil => rfl
  | cons a as ih =>
    cases as with
    | nil =>
      show [f a].countP p = [a].countP p
      rw [List.countP_cons, List.countP_cons, hf]
    | cons b bs =>
      rw [modifyLast_cons_of_ne_nil _ _ _ (by simp), List.countP_cons, List.countP_cons,
        ih]

theorem dropWhile_head_false (p : α → Bool) : ∀ (l : List α) (k : α) (ks : List α),
    l.dropWhile p = k :: ks → p k = false := by
  intro l
  induction l with
  | nil => intro k ks h; simp [List.dropWhile] at h
  | cons a l ih =>
    intro k ks h
    rw [List.dropWhile_cons] at h
    by_cases hp : p a = true
    · rw [if_pos hp] at h
      exact ih k ks h
    · rw [if_neg hp] at h
      injection h with h1 _
      subst h1
      exact Bool.not_eq_true _ |>.mp hp

theorem chunks_tail_nontop (ls : List String) :
    ∀ b ∈ chunks ls, ∀ x ∈ b.tail, topLevel x = false := by
  cases ls with
  | nil => intro b hb; simp [chunks] at hb
  | cons l ls => exact chunksAux_tail_nontop ls [l] (by simp) (by simp)

theorem chunks_head_nonblank (ls : List String) :
    ∀ b ∈ chunks (ls.dropWhile jsBlank), jsBlank (b.headD "") = false := by
  cases hk : ls.dropWhile jsBlank with
  | nil => intro b hb; simp [chunks] at hb
  | cons k ks =>
    intro b hb
    have hkf : jsBlank k = false := dropWhile_head_false jsBlank ls k ks hk
    rw [chunks] at hb
    exact chunksAux_head_nonblank ks [k] (by simp) (by simpa using hkf) b hb

theorem splitLines_append_nl (s : String) :
    splitLines (s ++ "\n") = splitLines s ++ [""] := by
  rw [splitLines, splitLines, str_data_append,
    show ("\n" : String).data = '\n' :: ([] : List Char) from rfl,
    splitOnChar_append_sep, List.map_append]
  rfl

theorem sectionIsCapabilities_snoc_blank (d : List String) :
    sectionIsCapabilities (joinNl (d ++ [""])) = sectionIsCapabilities (joinNl d) := by
  have hj : joinNl (d ++ [""]) = joinNl d ++ "\n" := by
    rw [joinNl_append, joinNl, joinNl, str_append_empty, str_empty_append]
  rw [hj, sectionIsCapabilities, sectionIsCapabilities, splitLines_append_nl,
    List.any_append]
  have hcaps : capsLineCI "" = false := by decide
  simp [hcaps]

/-- The `capabilitiesSections` list, expressed through the Section partition. -/
theorem capabilitiesSectionsOf_eq (c : String) :
    capabilitiesSectionsOf c =
      ((chunks ((splitLines c).dropWhile jsBlank)).filter
        (fun ch => ch.any capsLineCI)).map joinNl := by
  rw [capabilitiesSectionsOf, splitIntoYamlSections_eq_chunks, filter_map_comm]
  congr 1
  apply List.filter_congr
  intro ch hch
  exact sectionIsCapabilities_joinNl ch (chunk_lines_no_nl hch)

/-- The `otherSections` list, expressed through the Section partition. -/
theorem otherSectionsOf_eq (c : String) :
    otherSectionsOf c =
      ((chunks ((splitLines c).dropWhile jsBlank)).filter
        (fun ch => !(ch.any capsLineCI))).map joinNl := by
  rw [otherSectionsOf, splitIntoYamlSections_eq_chunks, filter_map_comm]
  congr 1
  apply List.filter_congr
  intro ch hch
  rw [sectionIsCapabilities_joinNl ch (chunk_lines_no_nl hch)]

/-! ### Unfolding lemmas for the per-file fixer -/

theorem fixFileContent_count_le (load : String → Bool) (bk : Bool) (c : String)
    (h : countCapabilitiesMatches c ≤ 1) : fixFileContent load bk c = .noAction := by
  rw [fixFileContent, if_pos h]

theorem fixFileContent_no_backup (load : String → Bool) (c : String)
    (h : 1 < countCapabilitiesMatches c) :
    fixFileContent load false c = .backupFailed := by
  rw [fixFileContent, if_neg (by omega)]
  rfl

theorem fixFileContent_single (load : String → Bool) (c : String)
    (h : 1 < countCapabilitiesMatches c)
    (hcaps : (capabilitiesSectionsOf c).length ≤ 1) :
    fixFileContent load true c = .singleSection := by
  rw [fixFileContent, if_neg (by omega), if_neg (by decide), if_pos hcaps]

theorem fixFileContent_no_valid (load : String → Bool) (c : String)
    (h : 1 < countCapabilitiesMatches c)
    (hcaps : 1 < (capabilitiesSectionsOf c).length)
    (hfind : (capabilitiesSectionsOf c).find? (validateYamlSection load) = none) :
    fixFileContent load true c = .noValidSection := by
  rw [fixFileContent, if_neg (by omega), if_neg (by decide), if_neg (by omega), hfind]

theorem fixFileContent_no_mode (load : String → Bool) (c v : String)
    (h : 1 < countCapabilitiesMatches c)
    (hcaps : 1 < (capabilitiesSectionsOf c).length)
    (hfind : (capabilitiesSectionsOf c).find? (validateYamlSection load) = some v)
    (hmode : findIndexOpt sectionHasMode (otherSectionsOf c) = none) :
    fixFileContent load true c = .noModeAnchor := by
  rw [fixFileContent, if_neg (by omega), if_neg (by decide), if_neg (by omega), hfind,
    hmode]

theorem fixFileContent_write (load : String → Bool) (c v : String) (m : Nat)
    (h : 1 < countCapabilitiesMatches c)
    (hcaps : 1 < (capabilitiesSectionsOf c).length)
    (hfind : (capabilitiesSectionsOf c).find? (validateYamlSection load) = some v)
    (hmode : findIndexOpt sectionHasMode (otherSectionsOf c) = some m) :
    fixFileContent load true c =
      if rebuiltContent v m c == c then .writeUnchanged (rebuiltContent v m c)
      else .fixed (rebuiltContent v m c) := by
  rw [fixFileContent, if_neg (by omega), if_neg (by decide), if_neg (by omega), hfind,
    hmode]

theorem fixFileContent_fixed_inv {load : String → Bool} {bk : Bool} {c n : String}
    (h : fixFileContent load bk c = .fixed n) :
    1 < countCapabilitiesMatches c ∧ bk = true ∧
      1 < (capabilitiesSectionsOf c).length ∧
      ∃ v m, (capabilitiesSectionsOf c).find? (validateYamlSection load) = some v ∧
        findIndexOpt sectionHasMode (otherSectionsOf c) = some m ∧
        n = rebuiltContent v m c ∧ ¬n = c := by
  by_cases h1 : countCapabilitiesMatches c ≤ 1
  · rw [fixFileContent_count_le load bk c h1] at h
    exact absurd h (by simp)
  · cases bk with
    | false =>
      rw [fixFileContent_no_backup load c (by omega)] at h
      exact absurd h (by simp)
    | true =>
      by_cases h2 : (capabilitiesSectionsOf c).length ≤ 1
      · rw [fixFileContent_single load c (by omega) h2] at h
        exact absurd h (by simp)
      · cases hfind : (capabilitiesSectionsOf c).find? (validateYamlSection load) with
        | none =>
          rw [fixFileContent_no_valid load c (by omega) (by omega) hfind] at h
          exact absurd h (by simp)
        | some v =>
          cases hmode : findIndexOpt sectionHasMode (otherSectionsOf c) with
          | none =>
            rw [fixFileContent_no_mode load c v (by omega) (by omega) hfind hmode] at h
            exact absurd h (by simp)
          | some m =>
            rw [fixFileContent_write load c v m (by omega) (by omega) hfind hmode] at h
            by_cases heq : (rebuiltContent v m c == c) = true
            · rw [if_pos heq] at h
              exact absurd h (by simp)
            · rw [if_neg heq] at h
              injection h with h'
              refine ⟨by omega, rfl, by omega, v, m, rfl, rfl, h'.symm, ?_⟩
              rw [← h']
              exact beq_eq_false_iff_ne.mp (Bool.not_eq_true _ |>.mp heq)

theorem fixFileContent_writeUnchanged_eq {load : String → Bool} {bk : Bool}
    {c n : String} (h : fixFileContent load bk c = .writeUnchanged n) : n = c := by
  by_cases h1 : countCapabilitiesMatches c ≤ 1
  · rw [fixFileContent_count_le load bk c h1] at h
    exact absurd h (by simp)
  · cases bk with
    | false =>
      rw [fixFileContent_no_backup load c (by omega)] at h
      exact absurd h (by simp)
    | true =>
      by_cases h2 : (capabilitiesSectionsOf c).length ≤ 1
      · rw [fixFileContent_single load c (by omega) h2] at h
        exact absurd h (by simp)
      · cases hfind : (capabilitiesSectionsOf c).find? (validateYamlSection load) with
        | none =>
          rw [fixFileContent_no_valid load c (by omega) (by omega) hfind] at h
          exact absurd h (by simp)
        | some v =>
          cases hmode : findIndexOpt sectionHasMode (otherSectionsOf c) with
          | none =>
            rw [fixFileContent_no_mode load c v (by omega) (by omega) hfind hmode] at h
            exact absurd h (by simp)
          | some m =>
            rw [fixFileContent_write load c v m (by omega) (by omega) hfind hmode] at h
            by_cases heq : (rebuiltContent v m c == c) = true
            · rw [if_pos heq] at h
              injection h with h'
              rw [← h']
              exact beq_iff_eq.mp heq
            · rw [if_neg heq] at h
              exact absurd h (by simp)

/-- Re-splitting the content rebuilt from one capabilities chunk and the
non-capabilities chunks yields at most one capabilities section: the rebuilt
file is fixed from the point of view of the section partition. -/
theorem capsSections_rebuilt (c : String) (vch : List String) (m : Nat)
    (hv : vch ∈ chunks ((splitLines c).dropWhile jsBlank))
    (hvc : vch.any capsLineCI = true)
    (hm : m < (otherSectionsOf c).length) :
    (capabilitiesSectionsOf (rebuiltContent (joinNl vch) m c)).length ≤ 1 := by
  obtain ⟨O0, OC, hOC⟩ : ∃ O0 OC,
      (chunks ((splitLines c).dropWhile jsBlank)).filter
        (fun ch => !(ch.any capsLineCI)) = O0 :: OC := by
    cases hx : (chunks ((splitLines c).dropWhile jsBlank)).filter
        (fun ch => !(ch.any capsLineCI)) with
    | nil =>
      rw [otherSectionsOf_eq, hx] at hm
      simp at hm
    | cons O0 OC => exact ⟨O0, OC, rfl⟩
  have hO0mem : O0 ∈ chunks ((splitLines c).dropWhile jsBlank) ∧
      (!(O0.any capsLineCI)) = true :=
    List.mem_filter.mp (by rw [hOC]; exact List.mem_cons_self _ _)
  have hOCmem : ∀ b ∈ OC, b ∈ chunks ((splitLines c).dropWhile jsBlank) ∧
      (!(b.any capsLineCI)) = true := fun b hb =>
    List.mem_filter.mp (by rw [hOC]; exact List.mem_cons_of_mem O0 hb)
  have hCHtails := chunks_tail_nontop ((splitLines c).dropWhile jsBlank)
  have hbs_mem : ∀ b ∈ OC.take m ++ vch :: OC.drop m,
      b ∈ chunks ((splitLines c).dropWhile jsBlank) := by
    intro b hb
    rcases List.mem_append.mp hb with hb | hb
    · exact (hOCmem b (List.take_subset m OC hb)).1
    · rcases List.mem_cons.mp hb with hb | hb
      · subst hb; exact hv
      · exact (hOCmem b (List.drop_subset m OC hb)).1
  have hbs_ne : ∀ b ∈ OC.take m ++ vch :: OC.drop m, b ≠ [] := fun b hb =>
    chunks_mem_ne_nil _ b (hbs_mem b hb)
  have hbs_tails : ∀ b ∈ OC.take m ++ vch :: OC.drop m, ∀ x ∈ b.tail,
      topLevel x = false := fun b hb => hCHtails b (hbs_mem b hb)
  obtain ⟨h0, t0, rfl⟩ : ∃ h t, O0 = h :: t := by
    cases hO : O0 with
    | nil => exact absurd hO (chunks_mem_ne_nil _ O0 hO0mem.1)
    | cons h t => exact ⟨h, t, rfl⟩
  have hh0 : jsBlank h0 = false := by
    have := chunks_head_nonblank (splitLines c) (h0 :: t0) hO0mem.1
    simpa using this
  have hrebuilt : rebuiltContent (joinNl vch) m c =
      joinNl (((h0 :: t0) :: (OC.take m ++ vch :: OC.drop m)).flatten) := by
    rw [rebuiltContent, otherSectionsOf_eq, hOC, List.map_cons, List.take_succ_cons,
      List.drop_succ_cons, ← List.map_take, ← List.map_drop,
      show joinNl (h0 :: t0) :: (OC.take m).map joinNl =
        ((h0 :: t0) :: OC.take m).map joinNl from (List.map_cons _ _ _).symm,
      show joinNl vch :: (OC.drop m).map joinNl =
        (vch :: OC.drop m).map joinNl from (List.map_cons _ _ _).symm,
      ← List.map_append, joinAll_map_joinNl, List.cons_append]
  have hLb_lines : ∀ l ∈ ((h0 :: t0) :: (OC.take m ++ vch :: OC.drop m)).flatten,
      l ∈ splitLines c := by
    intro l hl
    obtain ⟨b, hb, hlb⟩ := List.mem_flatten.mp hl
    rcases List.mem_cons.mp hb with hb | hb
    · subst hb; exact chunk_lines_mem hO0mem.1 l hlb
    · exact chunk_lines_mem (hbs_mem b hb) l hlb
  have hLb_nl : ∀ l ∈ ((h0 :: t0) :: (OC.take m ++ vch :: OC.drop m)).flatten,
      strContains l '\n' = false := fun l hl => splitLines_no_nl c l (hLb_lines l hl)
  have hLbcons : ((h0 :: t0) :: (OC.take m ++ vch :: OC.drop m)).flatten =
      h0 :: (t0 ++ (OC.take m ++ vch :: OC.drop m).flatten) := by
    rw [List.flatten_cons, List.cons_append]
  have hsplit : splitLines (joinNl (((h0 :: t0) :: (OC.take m ++ vch :: OC.drop m)).flatten)) =
      ((h0 :: t0) :: (OC.take m ++ vch :: OC.drop m)).flatten ++ [""] :=
    splitLines_joinNl _ hLb_nl (by rw [hLbcons]; simp)
  have hdrop : ((((h0 :: t0) :: (OC.take m ++ vch :: OC.drop m)).flatten ++ [""])).dropWhile jsBlank =
      ((h0 :: t0) :: (OC.take m ++ vch :: OC.drop m)).flatten ++ [""] := by
    rw [hLbcons, List.cons_append, List.dropWhile_cons]
    simp only [hh0, Bool.false_eq_true, if_false]
  have hend : chunks (((h0 :: t0) :: (OC.take m ++ vch :: OC.drop m)).flatten ++ [""]) =
      modifyLast (fun b => b ++ [""])
        (chunks (((h0 :: t0) :: (OC.take m ++ vch :: OC.drop m)).flatten)) := by
    rw [hLbcons, List.cons_append, chunks, chunks,
      chunksAux_append_end (t0 ++ (OC.take m ++ vch :: OC.drop m).flatten) [h0] [""]
        (by intro l hl; rw [List.mem_singleton] at hl; subst hl; decide)]
  have habsorb : chunksAux [h0] (t0 ++ (OC.take m ++ vch :: OC.drop m).flatten) =
      chunksAux (h0 :: t0) (OC.take m ++ vch :: OC.drop m).flatten := by
    have := chunksAux_absorb t0
      (fun x hx => hCHtails (h0 :: t0) hO0mem.1 x (by simpa using hx)) [h0]
      (OC.take m ++ vch :: OC.drop m).flatten
    simpa using this
  obtain ⟨groups, hg1, hg2, hg3⟩ :=
    chunksAux_master (OC.take m ++ vch :: OC.drop m) [h0 :: t0] (by simp) hbs_ne hbs_tails
  rw [show ([h0 :: t0] : List (List String)).flatten = h0 :: t0 from by simp] at hg1
  rw [List.singleton_append] at hg2
  have hgroups_nl : ∀ grp ∈ groups, ∀ l ∈ grp.flatten, strContains l '\n' = false := by
    intro grp hgrp l hl
    obtain ⟨b, hb, hlb⟩ := List.mem_flatten.mp hl
    have hbmem : b ∈ groups.flatten := List.mem_flatten.mpr ⟨grp, hgrp, hb⟩
    rw [hg2] at hbmem
    rcases List.mem_cons.mp hbmem with hbm | hbm
    · subst hbm; exact splitLines_no_nl c l (chunk_lines_mem hO0mem.1 l hlb)
    · exact splitLines_no_nl c l (chunk_lines_mem (hbs_mem b hbm) l hlb)
  rw [hrebuilt, capabilitiesSectionsOf, splitIntoYamlSections_eq_chunks, hsplit, hdrop,
    hend, hLbcons, chunks, habsorb, hg1, ← List.countP_eq_length_filter,
    countP_map_comm,
    countP_modifyLast_eq _ _ sectionIsCapabilities_snoc_blank, countP_map_comm]
  have hbound := countP_group_le_flatten
    (fun grp => sectionIsCapabilities (joinNl grp.flatten))
    (fun b => b.any capsLineCI) groups ?hq
  case hq =>
    intro grp hgrp hq'
    have hq2 : sectionIsCapabilities (joinNl grp.flatten) = true := hq'
    rw [sectionIsCapabilities_joinNl grp.flatten (hgroups_nl grp hgrp)] at hq2
    obtain ⟨l, hl, hcap⟩ := List.any_eq_true.mp hq2
    obtain ⟨b, hb, hlb⟩ := List.mem_flatten.mp hl
    have hbcaps : (fun b : List String => b.any capsLineCI) b = true :=
      List.any_eq_true.mpr ⟨l, hlb, hcap⟩
    have hpos : 0 < List.countP (fun b : List String => b.any capsLineCI) grp :=
      List.countP_pos_iff.mpr ⟨b, hb, hbcaps⟩
    omega
  have hcount1 : (((h0 :: t0) :: (OC.take m ++ vch :: OC.drop m)) :
      List (List String)).countP (fun b => b.any capsLineCI) = 1 := by
    rw [List.countP_cons, List.countP_append, List.countP_cons]
    have h1 : ((h0 :: t0).any capsLineCI) = false := bool_not_true hO0mem.2
    have htake : (OC.take m).countP (fun b => b.any capsLineCI) = 0 := by
      rw [List.countP_eq_zero]
      intro b hb
      have h2 : b.any capsLineCI = false :=
        bool_not_true (hOCmem b (List.take_subset m OC hb)).2
      simp [h2]
    have hdropz : (OC.drop m).countP (fun b => b.any capsLineCI) = 0 := by
      rw [List.countP_eq_zero]
      intro b hb
      have h2 : b.any capsLineCI = false :=
        bool_not_true (hOCmem b (List.drop_subset m OC hb)).2
      simp [h2]
    rw [htake, hdropz, h1, hvc]
    simp
  rw [hg2] at hbound
  omega

theorem fixFileContent_backup_false (load : String → Bool) (c : String) :
    fixFileContent load false c = .noAction ∨
      fixFileContent load false c = .backupFailed := by
  by_cases h : countCapabilitiesMatches c ≤ 1
  · exact Or.inl (fixFileContent_count_le load false c h)
  · exact Or.inr (fixFileContent_no_backup load c (by omega))

/-- After a successful rewrite, the written content has at most one
capabilities section. -/
theorem capsSections_of_fixed {load : String → Bool} {bk : Bool} {c n : String}
    (h : fixFileContent load bk c = .fixed n) :
    (capabilitiesSectionsOf n).length ≤ 1 := by
  obtain ⟨hcount, hbk, hcaps, v, m, hfind, hmode, hn, hneq⟩ := fixFileContent_fixed_inv h
  obtain ⟨vch, hvchmem, hvcheq⟩ : ∃ vch,
      vch ∈ (chunks ((splitLines c).dropWhile jsBlank)).filter
        (fun ch => ch.any capsLineCI) ∧ joinNl vch = v := by
    have hv : v ∈ capabilitiesSectionsOf c := List.mem_of_find?_eq_some hfind
    rw [capabilitiesSectionsOf_eq] at hv
    obtain ⟨vch, h1, h2⟩ := List.mem_map.mp hv
    exact ⟨vch, h1, h2⟩
  have hvCH : vch ∈ chunks ((splitLines c).dropWhile jsBlank) :=
    (List.mem_filter.mp hvchmem).1
  have hvcaps : vch.any capsLineCI = true := (List.mem_filter.mp hvchmem).2
  have hm : m < (otherSectionsOf c).length :=
    (findIndexOpt_some sectionHasMode "" (otherSectionsOf c) m hmode).1
  rw [hn, ← hvcheq]
  exact capsSections_rebuilt c vch m hvCH hvcaps hm

/-- A run on content with at most one capabilities section never rewrites. -/
theorem run_no_rewrite {n : String} (load : String → Bool) (bk : Bool)
    (hcaps : (capabilitiesSectionsOf n).length ≤ 1) :
    fixedContent (fixFileContent load bk n) n = n ∧
      isRewrite (fixFileContent load bk n) = false := by
  by_cases hc : countCapabilitiesMatches n ≤ 1
  · rw [fixFileContent_count_le load bk n hc]
    exact ⟨rfl, rfl⟩
  · cases bk with
    | false =>
      rw [fixFileContent_no_backup load n (by omega)]
      exact ⟨rfl, rfl⟩
    | true =>
      rw [fixFileContent_single load n (by omega) hcaps]
      exact ⟨rfl, rfl⟩

/-! ### Path model lemmas -/

theorem isPrefixOf_iff_ex : ∀ (p l : List Char),
    p.isPrefixOf l = true ↔ ∃ t, l = p ++ t := by
  intro p
  induction p with
  | nil => intro l; simp [List.isPrefixOf]
  | cons a p ih =>
    intro l
    cases l with
    | nil =>
      simp only [List.isPrefixOf]
      constructor
      · intro h; exact absurd h (by simp)
      · rintro ⟨t, ht⟩; simp at ht
    | cons b l =>
      rw [List.isPrefixOf, Bool.and_eq_true, beq_iff_eq, ih]
      constructor
      · rintro ⟨rfl, t, rfl⟩; exact ⟨t, rfl⟩
      · rintro ⟨t, ht⟩
        injection ht with h1 h2
        exact ⟨h1.symm, t, h2⟩

theorem startsWithStr_iff (p s : String) :
    startsWithStr p s = true ↔ ∃ t, s.data = p.data ++ t := by
  rw [startsWithStr, isPrefixOf_iff_ex]

theorem startsWithStr_refl (s : String) : startsWithStr s s = true :=
  (startsWithStr_iff s s).mpr ⟨[], (List.append_nil _).symm⟩

theorem startsWithStr_append (a b : String) : startsWithStr a (a ++ b) = true :=
  (startsWithStr_iff a (a ++ b)).mpr ⟨b.data, str_data_append a b⟩

theorem startsWithStr_of_append {a b t : String}
    (h : startsWithStr (a ++ b) t = true) : startsWithStr a t = true := by
  obtain ⟨u, hu⟩ := (startsWithStr_iff _ _).mp h
  rw [str_data_append, List.append_assoc] at hu
  exact (startsWithStr_iff _ _).mpr ⟨b.data ++ u, hu⟩

theorem isAbsPath_ne_empty {p : String} (h : isAbsPath p = true) : ¬ p = "" := by
  obtain ⟨t, ht⟩ := (startsWithStr_iff _ _).mp h
  intro hp
  subst hp
  simp at ht

theorem insideBase_imp_startsWith {b t : String} (h : insideBase b t = true) :
    startsWithStr b t = true := by
  rw [insideBase, Bool.or_eq_true] at h
  rcases h with h | h
  · rw [beq_iff_eq.mp h]; exact startsWithStr_refl b
  · exact startsWithStr_of_append h

theorem joinSlash_append : ∀ (xs ys : List (List Char)), xs ≠ [] → ys ≠ [] →
    joinSlash (xs ++ ys) = joinSlash xs ++ '/' :: joinSlash ys := by
  intro xs
  induction xs with
  | nil => intro ys h _; exact absurd rfl h
  | cons x xs ih =>
    intro ys _ hys
    cases xs with
    | nil =>
      cases ys with
      | nil => exact absurd rfl hys
      | cons y ys => rfl
    | cons x' xs' =>
      show x ++ '/' :: joinSlash ((x' :: xs') ++ ys) =
        (x ++ '/' :: joinSlash (x' :: xs')) ++ '/' :: joinSlash ys
      rw [ih ys (by simp) hys]
      simp

theorem splitOnChar_joinSlash : ∀ (ss : List (List Char)), ss ≠ [] →
    (∀ s ∈ ss, '/' ∉ s) → splitOnChar '/' (joinSlash ss) = ss := by
  intro ss
  induction ss with
  | nil => intro h _; exact absurd rfl h
  | cons x ss ih =>
    intro _ hns
    cases ss with
    | nil => exact splitOnChar_of_not_mem '/' x (hns x (List.mem_cons_self x []))
    | cons y ys =>
      rw [show joinSlash (x :: y :: ys) = x ++ '/' :: joinSlash (y :: ys) from rfl,
        splitOnChar_append_sep,
        splitOnChar_of_not_mem '/' x (hns x (List.mem_cons_self _ _)),
        ih (by simp) (fun s hs => hns s (List.mem_cons_of_mem x hs))]
      rfl

theorem normSegs_app : ∀ (xs : List (List Char)) (acc : List (List Char)),
    (∀ s ∈ xs, s ≠ [] ∧ s ≠ ['.'] ∧ s ≠ ['.', '.']) →
    normSegs acc xs = acc ++ xs := by
  intro xs
  induction xs with
  | nil => intro acc _; rw [normSegs, List.append_nil]
  | cons x xs ih =>
    intro acc hx
    obtain ⟨h1, h2, h3⟩ := hx x (List.mem_cons_self x xs)
    rw [normSegs, if_neg (by rintro (hc | hc) <;> [exact h1 hc; exact h2 hc]),
      if_neg h3, ih (acc ++ [x]) (fun s hs => hx s (List.mem_cons_of_mem x hs))]
    simp

theorem normSegs_append_eval : ∀ (xs ys acc : List (List Char)),
    normSegs acc (xs ++ ys) = normSegs (normSegs acc xs) ys := by
  intro xs
  induction xs with
  | nil => intro ys acc; rfl
  | cons x xs ih =>
    intro ys acc
    rw [List.cons_append, normSegs, normSegs]
    by_cases h1 : x = [] ∨ x = ['.']
    · rw [if_pos h1, if_pos h1, ih]
    · rw [if_neg h1, if_neg h1]
      by_cases h2 : x = ['.', '.']
      · rw [if_pos h2, if_pos h2, ih]
      · rw [if_neg h2, if_neg h2, ih]

theorem normSegs_subset : ∀ (xs acc : List (List Char)),
    ∀ s ∈ normSegs acc xs, s ∈ acc ∨ s ∈ xs := by
  intro xs
  induction xs with
  | nil => intro acc s hs; rw [normSegs] at hs; exact Or.inl hs
  | cons x xs ih =>
    intro acc s hs
    rw [normSegs] at hs
    by_cases h1 : x = [] ∨ x = ['.']
    · rw [if_pos h1] at hs
      rcases ih acc s hs with h | h
      · exact Or.inl h
      · exact Or.inr (List.mem_cons_of_mem x h)
    · rw [if_neg h1] at hs
      by_cases h2 : x = ['.', '.']
      · rw [if_pos h2] at hs
        rcases ih acc.dropLast s hs with h | h
        · exact Or.inl ((List.dropLast_sublist acc).subset h)
        · exact Or.inr (List.mem_cons_of_mem x h)
      · rw [if_neg h2] at hs
        rcases ih (acc ++ [x]) s hs with h | h
        · rcases List.mem_append.mp h with h | h
          · exact Or.inl h
          · rw [List.mem_singleton] at h
            subst h
            exact Or.inr (List.mem_cons_self s xs)
        · exact Or.inr (List.mem_cons_of_mem x h)

theorem normSegs_clean : ∀ (xs acc : List (List Char)),
    (∀ s ∈ acc, s ≠ [] ∧ s ≠ ['.'] ∧ s ≠ ['.', '.']) →
    ∀ s ∈ normSegs acc xs, s ≠ [] ∧ s ≠ ['.'] ∧ s ≠ ['.', '.'] := by
  intro xs
  induction xs with
  | nil => intro acc hacc s hs; rw [normSegs] at hs; exact hacc s hs
  | cons x xs ih =>
    intro acc hacc s hs
    rw [normSegs] at hs
    by_cases h1 : x = [] ∨ x = ['.']
    · rw [if_pos h1] at hs
      exact ih acc hacc s hs
    · rw [if_neg h1] at hs
      by_cases h2 : x = ['.', '.']
      · rw [if_pos h2] at hs
        exact ih acc.dropLast
          (fun u hu => hacc u ((List.dropLast_sublist acc).subset hu)) s hs
      · rw [if_neg h2] at hs
        refine ih (acc ++ [x]) ?_ s hs
        intro u hu
        rcases List.mem_append.mp hu with hu | hu
        · exact hacc u hu
        · rw [List.mem_singleton] at hu
          subst hu
          exact ⟨fun hc => h1 (Or.inl hc), fun hc => h1 (Or.inr hc), h2⟩

theorem cleanAbs_decomp {base : String} (hb : cleanAbs base = true)
    (hroot : ¬ base = "/") :
    ∃ CB : List (List Char), CB ≠ [] ∧
      (∀ s ∈ CB, (s ≠ [] ∧ s ≠ ['.'] ∧ s ≠ ['.', '.']) ∧ '/' ∉ s) ∧
      base.data = '/' :: joinSlash CB := by
  rw [cleanAbs, Bool.and_eq_true] at hb
  obtain ⟨habs, heq⟩ := hb
  have hbase : resolveAbs base = base := beq_iff_eq.mp heq
  refine ⟨normSegs [] (splitOnChar '/' base.data), ?_, ?_, ?_⟩
  · intro hnil
    apply hroot
    rw [← hbase, resolveAbs, hnil]
    rfl
  · intro s hs
    constructor
    · exact normSegs_clean _ [] (by intro u hu; simp at hu) s hs
    · rcases normSegs_subset _ [] s hs with h | h
      · simp at h
      · exact splitOnChar_not_mem '/' base.data s h
  · conv_lhs => rw [← hbase]
    rfl

theorem pathNormalize_clean {p : String} (h : cleanAbs p = true) :
    pathNormalize p = p := by
  rw [cleanAbs, Bool.and_eq_true] at h
  rw [pathNormalize, if_pos h.1]
  exact beq_iff_eq.mp h.2

theorem resolveAbs_under {base : String} (hb : cleanAbs base = true)
    (hroot : ¬ base = "/") (fs : List (List Char)) (hfs : fs ≠ [])
    (hclean : ∀ s ∈ fs, (s ≠ [] ∧ s ≠ ['.'] ∧ s ≠ ['.', '.']) ∧ '/' ∉ s)
    (file : String) (hfile : file.data = joinSlash fs) :
    resolveAbs (base ++ "/" ++ file) = base ++ "/" ++ file := by
  obtain ⟨CB, hCBne, hCBclean, hCBdata⟩ := cleanAbs_decomp hb hroot
  apply str_eq_of_data
  have hdata : (base ++ "/" ++ file).data =
      '/' :: (joinSlash CB ++ '/' :: joinSlash fs) := by
    rw [str_data_append, str_data_append, hCBdata, hfile,
      show ("/" : String).data = ['/'] from rfl]
    simp
  rw [resolveAbs, hdata]
  show '/' :: joinSlash (normSegs []
      (splitOnChar '/' ('/' :: (joinSlash CB ++ '/' :: joinSlash fs)))) =
    '/' :: (joinSlash CB ++ '/' :: joinSlash fs)
  rw [splitOnChar_cons_self, splitOnChar_append_sep,
    splitOnChar_joinSlash CB hCBne (fun s hs => (hCBclean s hs).2),
    splitOnChar_joinSlash fs hfs (fun s hs => (hclean s hs).2),
    normSegs, if_pos (Or.inl rfl), normSegs_append_eval,
    normSegs_app CB [] (fun s hs => (hCBclean s hs).1),
    show ([] : List (List Char)) ++ CB = CB from rfl,
    normSegs_app fs CB (fun s hs => (hclean s hs).1),
    joinSlash_append CB fs hCBne hfs]

theorem allowed_eq : ALLOWED_SYSTEM_PROMPT_FILES =
    [".roo/system-prompt-architect", ".roo/system-prompt-ask",
     ".roo/system-prompt-code", ".roo/system-prompt-debug",
     ".roo/system-prompt-test"] := by decide

theorem pathResolve_file {base : String} (hb : cleanAbs base = true)
    (hroot : ¬ base = "/") (file : String) (hnabs : isAbsPath file = false)
    (fs : List (List Char)) (hfs : fs ≠ [])
    (hclean : ∀ s ∈ fs, (s ≠ [] ∧ s ≠ ['.'] ∧ s ≠ ['.', '.']) ∧ '/' ∉ s)
    (hfile : file.data = joinSlash fs) :
    pathResolve base file = base ++ "/" ++ file := by
  have habs : isAbsPath base = true := by
    have hb2 := hb
    rw [cleanAbs, Bool.and_eq_true] at hb2
    exact hb2.1
  rw [pathResolve, if_neg (by rw [hnabs]; simp), if_pos habs]
  exact resolveAbs_under hb hroot fs hfs hclean file hfile

theorem pathResolve_allowed {base : String} (hb : cleanAbs base = true)
    (hroot : ¬ base = "/") {file : String}
    (hmem : file ∈ ALLOWED_SYSTEM_PROMPT_FILES) :
    pathResolve base file = base ++ "/" ++ file := by
  rw [allowed_eq] at hmem
  simp only [List.mem_cons, List.mem_singleton, List.not_mem_nil, or_false] at hmem
  rcases hmem with rfl | rfl | rfl | rfl | rfl
  · exact pathResolve_file hb hroot _ (by decide)
      [(".roo" : String).data, ("system-prompt-architect" : String).data]
      (by simp) (by decide) (by decide)
  · exact pathResolve_file hb hroot _ (by decide)
      [(".roo" : String).data, ("system-prompt-ask" : String).data]
      (by simp) (by decide) (by decide)
  · exact pathResolve_file hb hroot _ (by decide)
      [(".roo" : String).data, ("system-prompt-code" : String).data]
      (by simp) (by decide) (by decide)
  · exact pathResolve_file hb hroot _ (by decide)
      [(".roo" : String).data, ("system-prompt-debug" : String).data]
      (by simp) (by decide) (by decide)
  · exact pathResolve_file hb hroot _ (by decide)
      [(".roo" : String).data, ("system-prompt-test" : String).data]
      (by simp) (by decide) (by decide)

/-! ### Further helper lemmas for the claims -/

theorem fixFileContent_write_inv {load : String → Bool} {bk : Bool} {c : String}
    (h : isRewrite (fixFileContent load bk c) = true) :
    1 < countCapabilitiesMatches c ∧ bk = true ∧
      1 < (capabilitiesSectionsOf c).length ∧
      ∃ v m, (capabilitiesSectionsOf c).find? (validateYamlSection load) = some v ∧
        findIndexOpt sectionHasMode (otherSectionsOf c) = some m ∧
        fixedContent (fixFileContent load bk c) c = rebuiltContent v m c := by
  by_cases h1 : countCapabilitiesMatches c ≤ 1
  · rw [fixFileContent_count_le load bk c h1] at h
    exact absurd h (by simp [isRewrite])
  · cases bk with
    | false =>
      rw [fixFileContent_no_backup load c (by omega)] at h
      exact absurd h (by simp [isRewrite])
    | true =>
      by_cases h2 : (capabilitiesSectionsOf c).length ≤ 1
      · rw [fixFileContent_single load c (by omega) h2] at h
        exact absurd h (by simp [isRewrite])
      · cases hfind : (capabilitiesSectionsOf c).find? (validateYamlSection load) with
        | none =>
          rw [fixFileContent_no_valid load c (by omega) (by omega) hfind] at h
          exact absurd h (by simp [isRewrite])
        | some v =>
          cases hmode : findIndexOpt sectionHasMode (otherSectionsOf c) with
          | none =>
            rw [fixFileContent_no_mode load c v (by omega) (by omega) hfind hmode] at h
            exact absurd h (by simp [isRewrite])
          | some m =>
            refine ⟨by omega, rfl, by omega, v, m, rfl, rfl, ?_⟩
            rw [fixFileContent_write load c v m (by omega) (by omega) hfind hmode]
            by_cases heq : (rebuiltContent v m c == c) = true
            · rw [if_pos heq]; rfl
            · rw [if_neg heq]; rfl

theorem blank_line_not_caps {l : String} (h : jsBlank l = true) :
    capsLineCS l = false := by
  have hdrop : l.data.dropWhile jsWhitespace = [] := by
    rw [jsBlank] at h
    have h2 : jsTrim l = "" := beq_iff_eq.mp h
    have h3 : ((l.data.dropWhile jsWhitespace).reverse.dropWhile
        jsWhitespace).reverse = [] := by
      have := congrArg String.data h2
      exact this
    rw [List.reverse_eq_nil_iff, List.dropWhile_eq_nil_iff] at h3
    cases hd : l.data.dropWhile jsWhitespace with
    | nil => rfl
    | cons k ks =>
      have hk : jsWhitespace k = false := dropWhile_head_false _ l.data k ks hd
      have hk2 : jsWhitespace k = true := h3 k (by rw [hd]; simp)
      rw [hk] at hk2
      exact absurd hk2 (by decide)
  rw [capsLineCS, startsWithStr,
    show (dropLeadingWs l).data = l.data.dropWhile jsWhitespace from rfl, hdrop]
  rfl

theorem capsLineCS_to_CI {l : String} (h : capsLineCS l = true) :
    capsLineCI l = true := by
  rw [capsLineCS, startsWithStr] at h
  obtain ⟨t, ht⟩ := (isPrefixOf_iff_ex _ _).mp h
  rw [capsLineCI, startsWithStr, isPrefixOf_iff_ex]
  refine ⟨t.map Char.toLower, ?_⟩
  show (dropLeadingWs l).data.map Char.toLower = _
  rw [ht, List.map_append]
  congr 1

theorem headD_mem {l : List α} (d : α) (h : l ≠ []) : l.headD d ∈ l := by
  cases l with
  | nil => exact absurd rfl h
  | cons a as => exact List.mem_cons_self a as

theorem foldl_and_eq (p : α → Bool) : ∀ (l : List α) (b : Bool),
    l.foldl (fun acc x => acc && p x) b = (b && l.all p) := by
  intro l
  induction l with
  | nil => intro b; rw [List.foldl_nil, List.all_nil, Bool.and_true]
  | cons a l ih => intro b; rw [List.foldl_cons, ih, List.all_cons, Bool.and_assoc]

theorem sections_no_mode {c : String}
    (hnomode : ∀ l ∈ splitLines c, modeLineCI l = false) :
    ∀ s ∈ splitIntoYamlSections c, sectionHasMode s = false := by
  intro s hs
  rw [splitIntoYamlSections_eq_chunks] at hs
  obtain ⟨ch, hch, rfl⟩ := List.mem_map.mp hs
  rw [sectionHasMode_joinNl ch (chunk_lines_no_nl hch)]
  cases hx : ch.any modeLineCI with
  | false => rfl
  | true =>
    obtain ⟨l, hl, hml⟩ := List.any_eq_true.mp hx
    rw [hnomode l (chunk_lines_mem hch l hl)] at hml
    exact absurd hml (by decide)

theorem headLine_section {c : String} {s : String}
    (hs : s ∈ splitIntoYamlSections c) :
    ∃ ch, ch ∈ chunks ((splitLines c).dropWhile jsBlank) ∧ ch ≠ [] ∧
      s = joinNl ch ∧ headLine s = ch.headD "" := by
  rw [splitIntoYamlSections_eq_chunks] at hs
  obtain ⟨ch, hch, rfl⟩ := List.mem_map.mp hs
  have hne : ch ≠ [] := chunks_mem_ne_nil _ ch hch
  obtain ⟨l, d, rfl⟩ := List.exists_cons_of_ne_nil hne
  exact ⟨l :: d, hch, hne, rfl, headLine_joinNl l d (chunk_lines_no_nl hch)⟩

theorem count_ge_of_blocks {c : String}
    (hblocks : 2 ≤ ((splitIntoYamlSections c).filter
      (fun s => capsLineCS (headLine s))).length) :
    1 < countCapabilitiesMatches c := by
  rw [splitIntoYamlSections_eq_chunks, filter_map_comm, List.length_map,
    ← List.countP_eq_length_filter] at hblocks
  have hcongr : (chunks ((splitLines c).dropWhile jsBlank)).countP
        (fun ch => capsLineCS (headLine (joinNl ch))) =
      (chunks ((splitLines c).dropWhile jsBlank)).countP
        (fun ch => capsLineCS (ch.headD "")) := by
    rw [List.countP_eq_length_filter, List.countP_eq_length_filter]
    congr 1
    apply List.filter_congr
    intro ch hch
    obtain ⟨l, d, rfl⟩ :=
      List.exists_cons_of_ne_nil (chunks_mem_ne_nil _ ch hch)
    rw [headLine_joinNl l d (chunk_lines_no_nl hch)]
    rfl
  rw [hcongr] at hblocks
  have hle := countP_group_le_flatten (fun ch => capsLineCS (ch.headD ""))
    capsLineCS (chunks ((splitLines c).dropWhile jsBlank)) ?hq
  case hq =>
    intro b hb hqb
    obtain ⟨l, d, rfl⟩ := List.exists_cons_of_ne_nil (chunks_mem_ne_nil _ b hb)
    have : capsLineCS l = true := hqb
    have hpos : 0 < (l :: d).countP capsLineCS :=
      List.countP_pos_iff.mpr ⟨l, List.mem_cons_self l d, this⟩
    omega
  rw [chunks_flatten] at hle
  have hsplit : (splitLines c).countP capsLineCS =
      ((splitLines c).takeWhile jsBlank).countP capsLineCS +
        ((splitLines c).dropWhile jsBlank).countP capsLineCS := by
    conv_lhs => rw [← List.takeWhile_append_dropWhile (p := jsBlank) (l := splitLines c)]
    rw [List.countP_append]
  have htake : ((splitLines c).takeWhile jsBlank).countP capsLineCS = 0 := by
    rw [List.countP_eq_zero]
    intro l hl
    have hbl : jsBlank l = true := List.mem_takeWhile_imp hl
    rw [blank_line_not_caps hbl]
    simp
  rw [countCapabilitiesMatches, ← List.countP_eq_length_filter]
  omega

theorem capsSections_ge_of_blocks {c : String}
    (hblocks : 2 ≤ ((splitIntoYamlSections c).filter
      (fun s => capsLineCS (headLine s))).length) :
    1 < (capabilitiesSectionsOf c).length := by
  rw [← List.countP_eq_length_filter] at hblocks
  rw [capabilitiesSectionsOf, ← List.countP_eq_length_filter]
  have hmono := countP_mono_of_imp (fun s => capsLineCS (headLine s))
    sectionIsCapabilities (splitIntoYamlSections c) ?himp
  case himp =>
    intro s hs hp
    obtain ⟨ch, hch, hne, rfl, hhead⟩ := headLine_section hs
    rw [sectionIsCapabilities_joinNl ch (chunk_lines_no_nl hch)]
    have hp2 : capsLineCS (headLine (joinNl ch)) = true := hp
    rw [hhead] at hp2
    exact List.any_eq_true.mpr ⟨ch.headD "", headD_mem "" hne, capsLineCS_to_CI hp2⟩
  omega

/-! ### The claims -/

/-- C1: for a file whose content has more than one line matching
`^\s*capabilities:` and on which the fixer performs a rewrite, the new
content is exactly: the other sections up to and including the mode-anchor
section, then the first capabilities section (in original order) that
validates as YAML — non-validating candidates being skipped — then the
remaining other sections, with every other capabilities section dropped and
nothing else changed. -/
theorem c1_rewrite_reorders_sections (load : String → Bool) (c : String)
    (_hcount : 1 < countCapabilitiesMatches c)
    (hrw : isRewrite (fixFileContent load true c) = true) :
    ∃ i m, i < (capabilitiesSectionsOf c).length ∧
      m < (otherSectionsOf c).length ∧
      validateYamlSection load ((capabilitiesSectionsOf c).getD i "") = true ∧
      (∀ j, j < i →
        validateYamlSection load ((capabilitiesSectionsOf c).getD j "") = false) ∧
      sectionHasMode ((otherSectionsOf c).getD m "") = true ∧
      (∀ j, j < m → sectionHasMode ((otherSectionsOf c).getD j "") = false) ∧
      fixedContent (fixFileContent load true c) c =
        joinAll ((otherSectionsOf c).take (m + 1) ++
          ((capabilitiesSectionsOf c).getD i "") ::
            (otherSectionsOf c).drop (m + 1)) := by
  obtain ⟨_, _, _, v, m, hfind, hmode, heq⟩ := fixFileContent_write_inv hrw
  obtain ⟨i, hi, hgd, hpv, hprev⟩ :=
    find?_first (validateYamlSection load) "" _ v hfind
  obtain ⟨hm, hpm, hprevm⟩ := findIndexOpt_some sectionHasMode "" _ m hmode
  refine ⟨i, m, hi, hm, by rw [hgd]; exact hpv, hprev, hpm, hprevm, ?_⟩
  rw [heq, rebuiltContent, hgd]

/-- C1 witness: the spec §8 duplicate-block scenario, with the modelled
loader: the fixer rewrites, choosing the first (valid) capabilities block
and anchoring it after the `mode:` block. -/
theorem c1_witness :
    1 < countCapabilitiesMatches
        "mode:\n  x: 1\ncapabilities:\n  a: true\ncapabilities:\n  b: [unterminated\n" ∧
    isRewrite (fixFileContent specYamlLoad true
        "mode:\n  x: 1\ncapabilities:\n  a: true\ncapabilities:\n  b: [unterminated\n") =
      true ∧
    ∃ i m,
      i < (capabilitiesSectionsOf
        "mode:\n  x: 1\ncapabilities:\n  a: true\ncapabilities:\n  b: [unterminated\n").length ∧
      m < (otherSectionsOf
        "mode:\n  x: 1\ncapabilities:\n  a: true\ncapabilities:\n  b: [unterminated\n").length ∧
      validateYamlSection specYamlLoad ((capabilitiesSectionsOf
        "mode:\n  x: 1\ncapabilities:\n  a: true\ncapabilities:\n  b: [unterminated\n").getD i "") =
        true ∧
      (∀ j, j < i → validateYamlSection specYamlLoad ((capabilitiesSectionsOf
        "mode:\n  x: 1\ncapabilities:\n  a: true\ncapabilities:\n  b: [unterminated\n").getD j "") =
        false) ∧
      sectionHasMode ((otherSectionsOf
        "mode:\n  x: 1\ncapabilities:\n  a: true\ncapabilities:\n  b: [unterminated\n").getD m "") =
        true ∧
      (∀ j, j < m → sectionHasMode ((otherSectionsOf
        "mode:\n  x: 1\ncapabilities:\n  a: true\ncapabilities:\n  b: [unterminated\n").getD j "") =
        false) ∧
      fixedContent (fixFileContent specYamlLoad true
          "mode:\n  x: 1\ncapabilities:\n  a: true\ncapabilities:\n  b: [unterminated\n")
          "mode:\n  x: 1\ncapabilities:\n  a: true\ncapabilities:\n  b: [unterminated\n" =
        joinAll ((otherSectionsOf
          "mode:\n  x: 1\ncapabilities:\n  a: true\ncapabilities:\n  b: [unterminated\n").take (m + 1) ++
          ((capabilitiesSectionsOf
            "mode:\n  x: 1\ncapabilities:\n  a: true\ncapabilities:\n  b: [unterminated\n").getD i "") ::
            (otherSectionsOf
              "mode:\n  x: 1\ncapabilities:\n  a: true\ncapabilities:\n  b: [unterminated\n").drop (m + 1)) :=
  ⟨by decide, by decide,
    c1_rewrite_reorders_sections specYamlLoad
      "mode:\n  x: 1\ncapabilities:\n  a: true\ncapabilities:\n  b: [unterminated\n"
      (by decide) (by decide)⟩

/-- C2 (amended): concatenating the sections yields the input's lines with
the leading blank lines dropped and every remaining line terminated by a
newline (so one newline is appended at the end relative to the original);
the sections are exactly the groups of the Section partition, and the
partition's groups concatenate back to the kept lines, so every kept line
lies in exactly one section, in original order. -/
theorem c2_partition_amended (c : String) :
    joinAll (splitIntoYamlSections c) =
      joinNl ((splitLines c).dropWhile jsBlank) ∧
    splitIntoYamlSections c =
      (chunks ((splitLines c).dropWhile jsBlank)).map joinNl ∧
    (chunks ((splitLines c).dropWhile jsBlank)).flatten =
      (splitLines c).dropWhile jsBlank := by
  refine ⟨?_, splitIntoYamlSections_eq_chunks c, chunks_flatten _⟩
  rw [splitIntoYamlSections_eq_chunks, joinAll_map_joinNl, chunks_flatten]

/-- C2 counterexample: for the input `"a\n"`, which has no leading blank
lines, the concatenation of the sections is `"a\n\n"`, not the input: the
splitter appends a newline to every element of `split("\n")`, including the
trailing empty piece. -/
theorem c2_counterexample :
    splitIntoYamlSections "a\n" = ["a\n\n"] ∧
    ¬ joinAll (splitIntoYamlSections "a\n") = "a\n" ∧
    jsBlank ((splitLines "a\n").headD "") = false := by
  exact ⟨by decide, by decide, by decide⟩

/-- C3 (amended): for a file with two or more sections whose first line
matches `^\s*capabilities:` literally, and in which no line at all matches
`^\s*mode:` case-insensitively (the code anchors on any matching line of a
section, not only on sections whose first line matches), the fixer records
failure and leaves the content unchanged. -/
theorem c3_no_anchor_fails (load : String → Bool) (backupOk : Bool) (c : String)
    (hblocks : 2 ≤ ((splitIntoYamlSections c).filter
      (fun s => capsLineCS (headLine s))).length)
    (hnomode : ∀ l ∈ splitLines c, modeLineCI l = false) :
    fixFailed (fixFileContent load backupOk c) = true ∧
      fixedContent (fixFileContent load backupOk c) c = c := by
  have hcount := count_ge_of_blocks hblocks
  cases backupOk with
  | false =>
    rw [fixFileContent_no_backup load c hcount]
    exact ⟨rfl, rfl⟩
  | true =>
    have hcaps := capsSections_ge_of_blocks hblocks
    have hmode : findIndexOpt sectionHasMode (otherSectionsOf c) = none := by
      apply findIndexOpt_eq_none
      intro x hx
      refine sections_no_mode hnomode x ?_
      rw [otherSectionsOf] at hx
      exact (List.mem_filter.mp hx).1
    cases hfind : (capabilitiesSectionsOf c).find? (validateYamlSection load) with
    | none =>
      rw [fixFileContent_no_valid load c hcount (by omega) hfind]
      exact ⟨rfl, rfl⟩
    | some v =>
      rw [fixFileContent_no_mode load c v hcount (by omega) hfind hmode]
      exact ⟨rfl, rfl⟩

/-- C3 counterexample: a file with two `capabilities:` blocks and no
`mode:` block (no section's first line matches `^\s*mode:`), but with an
indented `mode:` line inside another section.  The fixer does not fail and
rewrites the file, because the anchor search matches any line of a
section. -/
theorem c3_counterexample :
    2 ≤ ((splitIntoYamlSections
        "other: y\n  mode: yes\ncapabilities:\n  a: 1\ncapabilities:\n  b: 2\n").filter
      (fun s => capsLineCS (headLine s))).length ∧
    ((splitIntoYamlSections
        "other: y\n  mode: yes\ncapabilities:\n  a: 1\ncapabilities:\n  b: 2\n").filter
      (fun s => modeLineCI (headLine s))).length = 0 ∧
    fixFailed (fixFileContent specYamlLoad true
      "other: y\n  mode: yes\ncapabilities:\n  a: 1\ncapabilities:\n  b: 2\n") = false ∧
    ¬ fixedContent (fixFileContent specYamlLoad true
        "other: y\n  mode: yes\ncapabilities:\n  a: 1\ncapabilities:\n  b: 2\n")
        "other: y\n  mode: yes\ncapabilities:\n  a: 1\ncapabilities:\n  b: 2\n" =
      "other: y\n  mode: yes\ncapabilities:\n  a: 1\ncapabilities:\n  b: 2\n" := by
  exact ⟨by decide, by decide, by decide, by decide⟩

/-- C3 witness: two literal `capabilities:` blocks and no `mode:` anywhere
make the fixer fail without modifying the content. -/
theorem c3_witness :
    2 ≤ ((splitIntoYamlSections "capabilities:\n  a: 1\ncapabilities:\n  b: 2\n").filter
      (fun s => capsLineCS (headLine s))).length ∧
    (∀ l ∈ splitLines "capabilities:\n  a: 1\ncapabilities:\n  b: 2\n",
      modeLineCI l = false) ∧
    (fixFailed (fixFileContent (fun _ => true) true
        "capabilities:\n  a: 1\ncapabilities:\n  b: 2\n") = true ∧
      fixedContent (fixFileContent (fun _ => true) true
          "capabilities:\n  a: 1\ncapabilities:\n  b: 2\n")
          "capabilities:\n  a: 1\ncapabilities:\n  b: 2\n" =
        "capabilities:\n  a: 1\ncapabilities:\n  b: 2\n") :=
  ⟨by decide, by decide,
    c3_no_anchor_fails (fun _ => true) true
      "capabilities:\n  a: 1\ncapabilities:\n  b: 2\n" (by decide) (by decide)⟩

/-- C4: on a file with at most one line matching `^\s*capabilities:` the
fixer does nothing: content unchanged, no backup attempted, no failure
recorded. -/
theorem c4_no_duplicates_no_action (load : String → Bool) (backupOk : Bool)
    (c : String) (h : countCapabilitiesMatches c ≤ 1) :
    fixedContent (fixFileContent load backupOk c) c = c ∧
      backupAttempted (fixFileContent load backupOk c) = false ∧
      fixFailed (fixFileContent load backupOk c) = false := by
  rw [fixFileContent_count_le load backupOk c h]
  exact ⟨rfl, rfl, rfl⟩

/-- C4 witness. -/
theorem c4_witness :
    countCapabilitiesMatches "x: 1\n" ≤ 1 ∧
      (fixedContent (fixFileContent specYamlLoad true "x: 1\n") "x: 1\n" = "x: 1\n" ∧
        backupAttempted (fixFileContent specYamlLoad true "x: 1\n") = false ∧
        fixFailed (fixFileContent specYamlLoad true "x: 1\n") = false) :=
  ⟨by decide, c4_no_duplicates_no_action specYamlLoad true "x: 1\n" (by decide)⟩

/-- C5: for a normalised absolute base other than the root, `validatePath`
returns the invalid sentinel `none` exactly when an input is empty, or the
candidate resolved against the base lies outside the base directory, or the
candidate is not literally in the allow-list; on success it returns the
resolved absolute path (which then lies inside the base and is
allow-listed). -/
theorem c5_validatePath_spec (base file : String) (hb : cleanAbs base = true)
    (hroot : ¬ base = "/") :
    (validatePath base file = none ↔
      base = "" ∨ file = "" ∨
        insideBase base (pathResolve base file) = false ∨
        ALLOWED_SYSTEM_PROMPT_FILES.contains file = false) ∧
    (∀ t, validatePath base file = some t →
      t = pathResolve base file ∧ insideBase base t = true ∧
        ALLOWED_SYSTEM_PROMPT_FILES.contains file = true) := by
  have hb2 := hb
  rw [cleanAbs, Bool.and_eq_true] at hb2
  have hbne : ¬ base = "" := isAbsPath_ne_empty hb2.1
  have hbeq : (base == "") = false := beq_eq_false_iff_ne.mpr hbne
  have hnb : pathNormalize base = base := pathNormalize_clean hb
  by_cases hf : file = ""
  · have hvp : validatePath base file = none := by
      rw [validatePath, if_pos (by subst hf; simp)]
    refine ⟨⟨fun _ => Or.inr (Or.inl hf), fun _ => hvp⟩, ?_⟩
    intro t ht
    rw [hvp] at ht
    exact absurd ht (by simp)
  · have hfeq : (file == "") = false := beq_eq_false_iff_ne.mpr hf
    have hunfold : validatePath base file =
        (if !startsWithStr base (pathResolve base file) then none
         else if !(ALLOWED_SYSTEM_PROMPT_FILES.contains file) then none
         else some (pathResolve base file)) := by
      rw [validatePath, if_neg (by rw [hbeq, hfeq]; simp), hnb]
    cases hsw : startsWithStr base (pathResolve base file) with
    | false =>
      have hvp : validatePath base file = none := by rw [hunfold, hsw]; rfl
      have hinside : insideBase base (pathResolve base file) = false := by
        cases hin : insideBase base (pathResolve base file) with
        | false => rfl
        | true =>
          have h2 := insideBase_imp_startsWith hin
          rw [hsw] at h2
          exact absurd h2 (by decide)
      refine ⟨⟨fun _ => Or.inr (Or.inr (Or.inl hinside)), fun _ => hvp⟩, ?_⟩
      intro t ht
      rw [hvp] at ht
      exact absurd ht (by simp)
    | true =>
      cases hcont : ALLOWED_SYSTEM_PROMPT_FILES.contains file with
      | false =>
        have hvp : validatePath base file = none := by rw [hunfold, hsw, hcont]; rfl
        refine ⟨⟨fun _ => Or.inr (Or.inr (Or.inr rfl)), fun _ => hvp⟩, ?_⟩
        intro t ht
        rw [hvp] at ht
        exact absurd ht (by simp)
      | true =>
        have hmem : file ∈ ALLOWED_SYSTEM_PROMPT_FILES :=
          List.mem_of_elem_eq_true hcont
        have hres : pathResolve base file = base ++ "/" ++ file :=
          pathResolve_allowed hb hroot hmem
        have hvp : validatePath base file = some (pathResolve base file) := by
          rw [hunfold, hsw, hcont]
          rfl
        have hinside : insideBase base (pathResolve base file) = true := by
          rw [hres, insideBase, startsWithStr_append (base ++ "/") file,
            Bool.or_true]
        constructor
        · constructor
          · intro hnone
            rw [hvp] at hnone
            exact absurd hnone (by simp)
          · rintro (h | h | h | h)
            · exact absurd h hbne
            · exact absurd h hf
            · rw [hinside] at h
              exact absurd h (by decide)
            · exact absurd h (by decide)
        · intro t ht
          rw [hvp] at ht
          injection ht with ht'
          exact ⟨ht'.symm, ht' ▸ hinside, rfl⟩

/-- C5 witness: the two scenario inputs of spec §8 both give the invalid
sentinel under the base `/base`. -/
theorem c5_witness :
    cleanAbs "/base" = true ∧
    validatePath "/base" "../../etc/passwd" = none ∧
    validatePath "/base" "notAllowed/file" = none := by
  refine ⟨by decide, ?_, ?_⟩
  · exact (c5_validatePath_spec "/base" "../../etc/passwd" (by decide)
      (by decide)).1.mpr (Or.inr (Or.inr (Or.inl (by decide))))
  · exact (c5_validatePath_spec "/base" "notAllowed/file" (by decide)
      (by decide)).1.mpr (Or.inr (Or.inr (Or.inr (by decide))))

/-- C6 (amended): the fixer is idempotent on content — a second run leaves
the content exactly as the first run left it, and after a rewrite the
second run performs no further write (the rewritten content has at most one
capabilities section, so the rewrite branch is unreachable).  The fixed
content may however still contain more than one line matching
`^\s*capabilities:` when the kept section has indented `capabilities:`
lines (see the counterexample). -/
theorem c6_idempotent_content (load : String → Bool) (backupOk : Bool)
    (c : String) :
    fixedContent
        (fixFileContent load backupOk (fixedContent (fixFileContent load backupOk c) c))
        (fixedContent (fixFileContent load backupOk c) c) =
      fixedContent (fixFileContent load backupOk c) c ∧
    (∀ n, fixFileContent load backupOk c = .fixed n →
      isRewrite (fixFileContent load backupOk n) = false) := by
  constructor
  · cases hres : fixFileContent load backupOk c with
    | fixed n =>
      simp only [hres, fixedContent]
      have hbk : backupOk = true := (fixFileContent_fixed_inv hres).2.1
      subst hbk
      exact (run_no_rewrite load true (capsSections_of_fixed hres)).1
    | writeUnchanged n =>
      have hn := fixFileContent_writeUnchanged_eq hres
      subst hn
      simp only [hres, fixedContent]
    | noAction => simp only [hres, fixedContent]
    | backupFailed => simp only [hres, fixedContent]
    | singleSection => simp only [hres, fixedContent]
    | noValidSection => simp only [hres, fixedContent]
    | noModeAnchor => simp only [hres, fixedContent]
  · intro n hn
    have hbk : backupOk = true := (fixFileContent_fixed_inv hn).2.1
    subst hbk
    exact (run_no_rewrite load true (capsSections_of_fixed hn)).2

/-- C6 counterexample: after fixing this file the content still has two
lines matching `^\s*capabilities:` (the kept section contains an indented
one), refuting the claim that a second run finds at most one such line. -/
theorem c6_counterexample :
    fixFileContent specYamlLoad true
        "mode: m\ncapabilities:\n  capabilities: 2\ncapabilities:\n  b: 1\n" =
      .fixed "mode: m\ncapabilities:\n  capabilities: 2\n" ∧
    countCapabilitiesMatches "mode: m\ncapabilities:\n  capabilities: 2\n" = 2 := by
  exact ⟨by decide, by decide⟩

/-- C6 witness: after the rewrite of the counterexample file, the second
run performs no further write. -/
theorem c6_witness :
    fixFileContent specYamlLoad true
        "mode: m\ncapabilities:\n  capabilities: 2\ncapabilities:\n  b: 1\n" =
      .fixed "mode: m\ncapabilities:\n  capabilities: 2\n" ∧
    isRewrite (fixFileContent specYamlLoad true
      "mode: m\ncapabilities:\n  capabilities: 2\n") = false :=
  ⟨by decide,
    (c6_idempotent_content specYamlLoad true
        "mode: m\ncapabilities:\n  capabilities: 2\ncapabilities:\n  b: 1\n").2
      "mode: m\ncapabilities:\n  capabilities: 2\n" (by decide)⟩

/-- C7 (amended): a section is classified as a Capabilities Section iff
SOME of its lines matches `^\s*capabilities:` case-insensitively (the
`/mi` regex matches anywhere in the section); a first-line match is
sufficient but not necessary, so a section whose first line does not match
may still be classified as a Capabilities Section. -/
theorem c7_any_line_classification (c s : String)
    (hs : s ∈ splitIntoYamlSections c) :
    (sectionIsCapabilities s = true ↔ ∃ l ∈ splitLines s, capsLineCI l = true) ∧
    (capsLineCI (headLine s) = true → sectionIsCapabilities s = true) ∧
    (s ∈ capabilitiesSectionsOf c ↔ sectionIsCapabilities s = true) ∧
    (s ∈ otherSectionsOf c ↔ sectionIsCapabilities s = false) := by
  refine ⟨?_, ?_, ?_, ?_⟩
  · rw [sectionIsCapabilities]
    exact List.any_eq_true
  · intro h
    rw [sectionIsCapabilities]
    exact List.any_eq_true.mpr ⟨headLine s, headD_mem "" (splitLines_ne_nil s), h⟩
  · rw [capabilitiesSectionsOf, List.mem_filter]
    exact ⟨fun h => h.2, fun h => ⟨hs, h⟩⟩
  · rw [otherSectionsOf, List.mem_filter]
    constructor
    · intro h
      exact bool_not_true h.2
    · intro h
      exact ⟨hs, by rw [h]; rfl⟩

/-- C7 counterexample: a section whose first line is `mode: a` but which
contains an indented `  capabilities: b` line is classified as a
Capabilities Section, leaving no Other Sections at all. -/
theorem c7_counterexample :
    sectionIsCapabilities "mode: a\n  capabilities: b\n\n" = true ∧
    capsLineCI (headLine "mode: a\n  capabilities: b\n\n") = false ∧
    splitIntoYamlSections "mode: a\n  capabilities: b\n" =
      ["mode: a\n  capabilities: b\n\n"] ∧
    capabilitiesSectionsOf "mode: a\n  capabilities: b\n" =
      ["mode: a\n  capabilities: b\n\n"] ∧
    otherSectionsOf "mode: a\n  capabilities: b\n" = [] := by
  exact ⟨by decide, by decide, by decide, by decide, by decide⟩

/-- C7 witness. -/
theorem c7_witness :
    "mode: a\n  capabilities: b\n\n" ∈
      splitIntoYamlSections "mode: a\n  capabilities: b\n" ∧
    ("mode: a\n  capabilities: b\n\n" ∈
        capabilitiesSectionsOf "mode: a\n  capabilities: b\n" ↔
      sectionIsCapabilities "mode: a\n  capabilities: b\n\n" = true) :=
  ⟨by decide,
    (c7_any_line_classification "mode: a\n  capabilities: b\n"
      "mode: a\n  capabilities: b\n\n" (by decide)).2.2.1⟩

/-- C8: under the spec-modelled loader the fragment
`mode: code\n  description: test\n` validates as valid, and for every
loader the validator takes the nesting-wrap path on this fragment (its
verdict is the loader's verdict on the two-space-indented fragment under
`temp_root:`); any section without a colon is valid without consulting the
loader at all. -/
theorem c8_fragment_validation :
    validateYamlSection specYamlLoad "mode: code\n  description: test\n" = true ∧
    (∀ load : String → Bool,
      validateYamlSection load "mode: code\n  description: test\n" =
        load (wrapSection "mode: code\n  description: test\n")) ∧
    wrapSection "mode: code\n  description: test\n" =
      "temp_root:\n  mode: code\n    description: test\n  " ∧
    (∀ (load : String → Bool) (s : String), strContains s ':' = false →
      validateYamlSection load s = true) := by
  refine ⟨by decide, ?_, by decide, ?_⟩
  · intro load
    rw [validateYamlSection, if_neg (by decide), if_neg (by decide)]
  · intro load s h
    rw [validateYamlSection, if_pos (by rw [h]; simp)]

/-- C8 witness: a colon-free section is valid for a loader that rejects
everything. -/
theorem c8_witness :
    strContains "plain text" ':' = false ∧
    validateYamlSection (fun _ => false) "plain text" = true :=
  ⟨by decide, c8_fragment_validation.2.2.2 (fun _ => false) "plain text" (by decide)⟩

/-- C9: the two public drivers never abort: with the root preconditions
satisfied every allow-listed file is processed and the returned boolean is
exactly the conjunction of the per-file outcomes (so `fix` returns true
only if every processed file either needed no fix or was fixed without
errors); a file's outcome depends only on its own environment, so an
injected failure in one file never changes the processing of the others;
and a missing project root yields `false` rather than an exception. -/
theorem c9_driver_aggregation (load : String → Bool) (root : String)
    (env env' : String → FileEnv) (g : String)
    (henv : ∀ f, ¬ f = g → env' f = env f) :
    (fixDuplicateCapabilities load true true root env = true ↔
      ∀ f ∈ ALLOWED_SYSTEM_PROMPT_FILES,
        outcomeOk (processFile load (env f) root f) = true) ∧
    (validateFilesWithYaml load true true root env = true ↔
      ∀ f ∈ ALLOWED_SYSTEM_PROMPT_FILES,
        processFileValidate load (env f) root f = true) ∧
    (∀ f ∈ ALLOWED_SYSTEM_PROMPT_FILES, ¬ f = g →
      processFile load (env' f) root f = processFile load (env f) root f) ∧
    fixDuplicateCapabilities load false true root env = false := by
  refine ⟨?_, ?_, fun f _ hf => by rw [henv f hf], rfl⟩
  · have h1 : fixDuplicateCapabilities load true true root env =
        ALLOWED_SYSTEM_PROMPT_FILES.foldl
          (fun acc f => acc && outcomeOk (processFile load (env f) root f)) true :=
      rfl
    rw [h1, foldl_and_eq, Bool.true_and, List.all_eq_true]
  · have h1 : validateFilesWithYaml load true true root env =
        ALLOWED_SYSTEM_PROMPT_FILES.foldl
          (fun acc f => acc && processFileValidate load (env f) root f) true :=
      rfl
    rw [h1, foldl_and_eq, Bool.true_and, List.all_eq_true]

/-- C9 witness: a run over an empty project (every file missing) succeeds. -/
theorem c9_witness :
    fixDuplicateCapabilities (fun _ => true) true true "/p"
      (fun _ => ⟨false, false, "", true, false⟩) = true :=
  (c9_driver_aggregation (fun _ => true) "/p"
      (fun _ => ⟨false, false, "", true, false⟩)
      (fun _ => ⟨false, false, "", true, false⟩) "" (fun _ _ => rfl)).1.mpr
    (by decide)

/-- C10: whenever a file's content has more than one line matching
`^\s*capabilities:`, the backup is attempted before the fixer decides
whether the file can actually be fixed; in particular, when the fix then
fails (no validating capabilities section, no mode anchor, or a write that
did not take effect) a backup exists and the content is unchanged. -/
theorem c10_backup_before_decision (load : String → Bool) (c : String)
    (hcount : 1 < countCapabilitiesMatches c) :
    (∀ bk, backupAttempted (fixFileContent load bk c) = true) ∧
    (fixFailed (fixFileContent load true c) = true →
      backupMade (fixFileContent load true c) = true ∧
        fixedContent (fixFileContent load true c) c = c) := by
  constructor
  · intro bk
    cases bk with
    | false => rw [fixFileContent_no_backup load c hcount]; rfl
    | true =>
      by_cases h2 : (capabilitiesSectionsOf c).length ≤ 1
      · rw [fixFileContent_single load c hcount h2]; rfl
      · cases hfind : (capabilitiesSectionsOf c).find? (validateYamlSection load) with
        | none => rw [fixFileContent_no_valid load c hcount (by omega) hfind]; rfl
        | some v =>
          cases hmode : findIndexOpt sectionHasMode (otherSectionsOf c) with
          | none =>
            rw [fixFileContent_no_mode load c v hcount (by omega) hfind hmode]
            rfl
          | some m =>
            rw [fixFileContent_write load c v m hcount (by omega) hfind hmode]
            by_cases heq : (rebuiltContent v m c == c) = true
            · rw [if_pos heq]; rfl
            · rw [if_neg heq]; rfl
  · intro hfail
    by_cases h2 : (capabilitiesSectionsOf c).length ≤ 1
    · rw [fixFileContent_single load c hcount h2] at hfail
      exact absurd hfail (by simp [fixFailed])
    · cases hfind : (capabilitiesSectionsOf c).find? (validateYamlSection load) with
      | none =>
        rw [fixFileContent_no_valid load c hcount (by omega) hfind]
        exact ⟨rfl, rfl⟩
      | some v =>
        cases hmode : findIndexOpt sectionHasMode (otherSectionsOf c) with
        | none =>
          rw [fixFileContent_no_mode load c v hcount (by omega) hfind hmode]
          exact ⟨rfl, rfl⟩
        | some m =>
          rw [fixFileContent_write load c v m hcount (by omega) hfind hmode] at hfail ⊢
          by_cases heq : (rebuiltContent v m c == c) = true
          · rw [if_pos heq] at hfail ⊢
            refine ⟨rfl, ?_⟩
            show fixedContent (.writeUnchanged (rebuiltContent v m c)) c = c
            simp only [fixedContent]
            exact beq_iff_eq.mp heq
          · rw [if_neg heq] at hfail
            exact absurd hfail (by simp [fixFailed])

/-- C10 witness: a file with two capabilities blocks, neither of which
validates, fails — yet the backup was made and the content is untouched. -/
theorem c10_witness :
    1 < countCapabilitiesMatches
        "capabilities:\n  a: [x\ncapabilities:\n  b: [y\nmode: m\n" ∧
    fixFailed (fixFileContent specYamlLoad true
      "capabilities:\n  a: [x\ncapabilities:\n  b: [y\nmode: m\n") = true ∧
    (backupMade (fixFileContent specYamlLoad true
        "capabilities:\n  a: [x\ncapabilities:\n  b: [y\nmode: m\n") = true ∧
      fixedContent (fixFileContent specYamlLoad true
          "capabilities:\n  a: [x\ncapabilities:\n  b: [y\nmode: m\n")
          "capabilities:\n  a: [x\ncapabilities:\n  b: [y\nmode: m\n" =
        "capabilities:\n  a: [x\ncapabilities:\n  b: [y\nmode: m\n") :=
  ⟨by decide, by decide,
    (c10_backup_before_decision specYamlLoad
        "capabilities:\n  a: [x\ncapabilities:\n  b: [y\nmode: m\n"
        (by decide)).2 (by decide)⟩

end Sanitizer


